import Mathlib

/-!
Verification development for the Bulldog Behavior Interpreter single-file
web application (src/index.tsx).  The application state and its event
handlers are shallowly embedded as pure Lean functions; the platform
JSON.stringify / JSON.parse pair is modelled by an executable serializer
and recursive-descent reader over a JSON value type, with a proved
round-trip theorem.  Machine-platform pieces (FileReader, object URLs,
clocks, the inference endpoint) enter as explicit environment inputs.
-/

namespace BBI

/-! ### Decimal digits -/

def digitChar (n : Nat) : Char := Char.ofNat (48 + n)

def isDigit (c : Char) : Bool := 48 ≤ c.toNat && c.toNat ≤ 57

def natToCharsAux : Nat → List Char → List Char
  | 0, acc => acc
  | n + 1, acc => natToCharsAux ((n + 1) / 10) (digitChar ((n + 1) % 10) :: acc)

/-- Decimal character rendering of a natural number, as produced by the
JavaScript conversions `String(n)` and template interpolation. -/
def natToChars (n : Nat) : List Char :=
  if n = 0 then [Char.ofNat 48] else natToCharsAux n []

def natStr (n : Nat) : String := String.mk (natToChars n)

def digStep (acc : Nat) (c : Char) : Nat := acc * 10 + (c.toNat - 48)

def readDigits : List Char → Nat → Nat × List Char
  | [], acc => (acc, [])
  | c :: rest, acc =>
    if isDigit c then readDigits rest (digStep acc c) else (acc, c :: rest)

theorem digitChar_toNat {n : Nat} (h : n < 10) : (digitChar n).toNat = 48 + n := by
  interval_cases n <;> decide

theorem isDigit_digitChar {n : Nat} (h : n < 10) : isDigit (digitChar n) = true := by
  interval_cases n <;> decide

theorem natToCharsAux_acc (n : Nat) (acc : List Char) :
    natToCharsAux n acc = natToCharsAux n [] ++ acc := by
  induction n using Nat.strong_induction_on generalizing acc with
  | _ n ih =>
    match n with
    | 0 => simp [natToCharsAux]
    | m + 1 =>
      rw [natToCharsAux, natToCharsAux]
      rw [ih ((m + 1) / 10) (Nat.div_lt_self (Nat.succ_pos m) (by omega))]
      rw [ih ((m + 1) / 10) (Nat.div_lt_self (Nat.succ_pos m) (by omega))
            (digitChar ((m + 1) % 10) :: [])]
      simp

theorem natToCharsAux_ne_nil {n : Nat} (h : 0 < n) : natToCharsAux n [] ≠ [] := by
  match n, h with
  | m + 1, _ =>
    rw [natToCharsAux, natToCharsAux_acc]
    simp

theorem natToChars_ne_nil (n : Nat) : natToChars n ≠ [] := by
  unfold natToChars
  split
  · simp
  · exact natToCharsAux_ne_nil (by omega)

theorem natToCharsAux_all_digits (n : Nat) :
    ∀ c ∈ natToCharsAux n [], isDigit c = true := by
  induction n using Nat.strong_induction_on with
  | _ n ih =>
    match n with
    | 0 => simp [natToCharsAux]
    | m + 1 =>
      rw [natToCharsAux, natToCharsAux_acc]
      intro c hc
      rcases List.mem_append.1 hc with h1 | h1
      · exact ih ((m + 1) / 10) (Nat.div_lt_self (Nat.succ_pos m) (by omega)) c h1
      · have : c = digitChar ((m + 1) % 10) := by simpa using h1
        subst this
        exact isDigit_digitChar (Nat.mod_lt _ (by omega))

theorem natToChars_all_digits (n : Nat) :
    ∀ c ∈ natToChars n, isDigit c = true := by
  unfold natToChars
  split
  · intro c hc
    have : c = Char.ofNat 48 := by simpa using hc
    subst this; decide
  · exact natToCharsAux_all_digits n

/-- Reading digit characters consumes exactly the leading all-digit block. -/
theorem readDigits_digits (ds : List Char) (rest : List Char) (acc : Nat)
    (hds : ∀ c ∈ ds, isDigit c = true)
    (hrest : rest = [] ∨ ∃ c cs, rest = c :: cs ∧ isDigit c = false) :
    readDigits (ds ++ rest) acc = (ds.foldl digStep acc, rest) := by
  induction ds generalizing acc with
  | nil =>
    rcases hrest with h | ⟨c, cs, rfl, hc⟩
    · subst h; simp [readDigits]
    · simp [readDigits, hc]
  | cons d ds ih =>
    have hd : isDigit d = true := hds d (List.mem_cons_self d ds)
    rw [List.cons_append, readDigits]
    simp only [hd, if_true]
    rw [ih (digStep acc d) (fun c hc => hds c (List.mem_cons_of_mem d hc))]
    rfl

theorem foldl_digStep_natToCharsAux {n : Nat} (h : 0 < n) (acc : Nat) :
    (natToCharsAux n []).foldl digStep acc = acc * 10 ^ (natToCharsAux n []).length + n := by
  induction n using Nat.strong_induction_on generalizing acc with
  | _ n ih =>
    match n, h with
    | m + 1, _ =>
      rw [natToCharsAux, natToCharsAux_acc]
      rcases Nat.eq_zero_or_pos ((m + 1) / 10) with h0 | hpos
      · rw [h0]
        have hlt : m + 1 < 10 := by omega
        simp [natToCharsAux, digStep, digitChar_toNat (Nat.mod_lt _ (by omega))]
        omega
      · rw [List.foldl_append]
        rw [ih ((m + 1) / 10) (Nat.div_lt_self (Nat.succ_pos m) (by omega)) hpos acc]
        simp only [List.foldl_cons, List.foldl_nil, digStep,
          digitChar_toNat (Nat.mod_lt (m + 1) (by omega : (0:Nat) < 10))]
        rw [List.length_append, List.length_cons, List.length_nil]
        rw [pow_succ]
        have hdm := Nat.div_add_mod (m + 1) 10
        ring_nf
        omega

theorem foldl_digStep_natToChars (n : Nat) :
    (natToChars n).foldl digStep 0 = n := by
  unfold natToChars
  split
  · simp [digStep]; omega
  · rw [foldl_digStep_natToCharsAux (by omega)]
    simp

/-- Round trip: reading back the decimal rendering recovers the number. -/
theorem readDigits_natToChars (n : Nat) (rest : List Char)
    (hrest : rest = [] ∨ ∃ c cs, rest = c :: cs ∧ isDigit c = false) :
    readDigits (natToChars n ++ rest) 0 = (n, rest) := by
  rw [readDigits_digits _ _ _ (natToChars_all_digits n) hrest,
    foldl_digStep_natToChars]

theorem natStr_injective : Function.Injective natStr := by
  intro a b h
  have hd : natToChars a = natToChars b := congrArg String.data h
  have ha := foldl_digStep_natToChars a
  have hb := foldl_digStep_natToChars b
  rw [hd] at ha
  omega

/-! ### Hexadecimal digits (for JSON control-character escapes) -/

def hexDigitChar (n : Nat) : Char :=
  if n < 10 then digitChar n else Char.ofNat (87 + n)

def isHexDigit (c : Char) : Bool :=
  isDigit c || (97 ≤ c.toNat && c.toNat ≤ 102) || (65 ≤ c.toNat && c.toNat ≤ 70)

def hexVal (c : Char) : Nat :=
  if isDigit c then c.toNat - 48
  else if 65 ≤ c.toNat && c.toNat ≤ 70 then c.toNat - 55
  else c.toNat - 87

theorem hexVal_hexDigitChar {n : Nat} (h : n < 16) :
    hexVal (hexDigitChar n) = n ∧ isHexDigit (hexDigitChar n) = true := by
  interval_cases n <;> exact ⟨by decide, by decide⟩

/-! ### JSON string-literal escaping, as performed by JSON.stringify -/

def bsC : Char := Char.ofNat 92

def qC : Char := Char.ofNat 34

/-- Escape a single character the way JSON.stringify does: quote and
backslash get a backslash escape, the five short control escapes are used
where they exist, remaining control characters become a \u00XX escape, and
every other character is emitted verbatim. -/
def escapeChar (c : Char) : List Char :=
  if c = qC then [bsC, qC]
  else if c = bsC then [bsC, bsC]
  else if c = Char.ofNat 8 then [bsC, Char.ofNat 98]
  else if c = Char.ofNat 9 then [bsC, Char.ofNat 116]
  else if c = Char.ofNat 10 then [bsC, Char.ofNat 110]
  else if c = Char.ofNat 12 then [bsC, Char.ofNat 102]
  else if c = Char.ofNat 13 then [bsC, Char.ofNat 114]
  else if c.toNat < 32 then
    [bsC, Char.ofNat 117, Char.ofNat 48, Char.ofNat 48,
      hexDigitChar (c.toNat / 16), hexDigitChar (c.toNat % 16)]
  else [c]

def escChars (cs : List Char) : List Char := (cs.map escapeChar).flatten

/-- Read a JSON string body (the opening quote already consumed), undoing
JSON escape sequences, as JSON.parse does. -/
def readStr (l : List Char) (acc : List Char) : Option (List Char × List Char) :=
  match l with
  | [] => none
  | c :: rest =>
    if c = qC then some (acc.reverse, rest)
    else if c = bsC then
      match rest with
      | [] => none
      | e :: rest2 =>
        if e = qC then readStr rest2 (qC :: acc)
        else if e = bsC then readStr rest2 (bsC :: acc)
        else if e = Char.ofNat 47 then readStr rest2 (Char.ofNat 47 :: acc)
        else if e = Char.ofNat 98 then readStr rest2 (Char.ofNat 8 :: acc)
        else if e = Char.ofNat 116 then readStr rest2 (Char.ofNat 9 :: acc)
        else if e = Char.ofNat 110 then readStr rest2 (Char.ofNat 10 :: acc)
        else if e = Char.ofNat 102 then readStr rest2 (Char.ofNat 12 :: acc)
        else if e = Char.ofNat 114 then readStr rest2 (Char.ofNat 13 :: acc)
        else if e = Char.ofNat 117 then
          match rest2 with
          | h1 :: h2 :: h3 :: h4 :: rest3 =>
            if isHexDigit h1 && isHexDigit h2 && isHexDigit h3 && isHexDigit h4 then
              readStr rest3
                (Char.ofNat (hexVal h1 * 4096 + hexVal h2 * 256 + hexVal h3 * 16 + hexVal h4)
                  :: acc)
            else none
          | _ => none
        else none
    else readStr rest (c :: acc)
/-- Reading back the escape sequence of one character consumes it and
pushes the original character on the accumulator. -/
theorem readStr_escapeChar (c : Char) (l acc : List Char) :
    readStr (escapeChar c ++ l) acc = readStr l (c :: acc) := by
  unfold escapeChar
  by_cases h1 : c = qC
  · subst h1
    simp only [if_false, if_true, ite_true, ite_false, List.cons_append, List.nil_append]
    rw [readStr.eq_def]
    simp only [show (bsC = qC) = False from by decide,
      show (bsC = bsC) = True from by simp,
      show (qC = qC) = True from by simp, if_false, if_true, ite_true, ite_false]
  by_cases h2 : c = bsC
  · subst h2
    simp only [h1, if_false, if_true, ite_true, ite_false, List.cons_append, List.nil_append]
    rw [readStr.eq_def]
    simp only [show (bsC = qC) = False from by decide,
      show (bsC = bsC) = True from by simp,
      show (bsC = qC) = False from by decide,
      show (bsC = bsC) = True from by simp, if_false, if_true, ite_true, ite_false]
  by_cases h3 : c = Char.ofNat 8
  · subst h3
    simp only [h1, h2, if_false, if_true, ite_true, ite_false, List.cons_append, List.nil_append]
    rw [readStr.eq_def]
    simp only [show (bsC = qC) = False from by decide,
      show (bsC = bsC) = True from by simp,
      show (Char.ofNat 98 = qC) = False from by decide,
      show (Char.ofNat 98 = bsC) = False from by decide,
      show (Char.ofNat 98 = Char.ofNat 47) = False from by decide,
      show (Char.ofNat 98 = Char.ofNat 98) = True from by simp, if_false, if_true, ite_true, ite_false]
  by_cases h4 : c = Char.ofNat 9
  · subst h4
    simp only [h1, h2, h3, if_false, if_true, ite_true, ite_false, List.cons_append, List.nil_append]
    rw [readStr.eq_def]
    simp only [show (bsC = qC) = False from by decide,
      show (bsC = bsC) = True from by simp,
      show (Char.ofNat 116 = qC) = False from by decide,
      show (Char.ofNat 116 = bsC) = False from by decide,
      show (Char.ofNat 116 = Char.ofNat 47) = False from by decide,
      show (Char.ofNat 116 = Char.ofNat 98) = False from by decide,
      show (Char.ofNat 116 = Char.ofNat 116) = True from by simp, if_false, if_true, ite_true, ite_false]
  by_cases h5 : c = Char.ofNat 10
  · subst h5
    simp only [h1, h2, h3, h4, if_false, if_true, ite_true, ite_false, List.cons_append, List.nil_append]
    rw [readStr.eq_def]
    simp only [show (bsC = qC) = False from by decide,
      show (bsC = bsC) = True from by simp,
      show (Char.ofNat 110 = qC) = False from by decide,
      show (Char.ofNat 110 = bsC) = False from by decide,
      show (Char.ofNat 110 = Char.ofNat 47) = False from by decide,
      show (Char.ofNat 110 = Char.ofNat 98) = False from by decide,
      show (Char.ofNat 110 = Char.ofNat 116) = False from by decide,
      show (Char.ofNat 110 = Char.ofNat 110) = True from by simp, if_false, if_true, ite_true, ite_false]
  by_cases h6 : c = Char.ofNat 12
  · subst h6
    simp only [h1, h2, h3, h4, h5, if_false, if_true, ite_true, ite_false, List.cons_append, List.nil_append]
    rw [readStr.eq_def]
    simp only [show (bsC = qC) = False from by decide,
      show (bsC = bsC) = True from by simp,
      show (Char.ofNat 102 = qC) = False from by decide,
      show (Char.ofNat 102 = bsC) = False from by decide,
      show (Char.ofNat 102 = Char.ofNat 47) = False from by decide,
      show (Char.ofNat 102 = Char.ofNat 98) = False from by decide,
      show (Char.ofNat 102 = Char.ofNat 116) = False from by decide,
      show (Char.ofNat 102 = Char.ofNat 110) = False from by decide,
      show (Char.ofNat 102 = Char.ofNat 102) = True from by simp, if_false, if_true, ite_true, ite_false]
  by_cases h7 : c = Char.ofNat 13
  · subst h7
    simp only [h1, h2, h3, h4, h5, h6, if_false, if_true, ite_true, ite_false, List.cons_append, List.nil_append]
    rw [readStr.eq_def]
    simp only [show (bsC = qC) = False from by decide,
      show (bsC = bsC) = True from by simp,
      show (Char.ofNat 114 = qC) = False from by decide,
      show (Char.ofNat 114 = bsC) = False from by decide,
      show (Char.ofNat 114 = Char.ofNat 47) = False from by decide,
      show (Char.ofNat 114 = Char.ofNat 98) = False from by decide,
      show (Char.ofNat 114 = Char.ofNat 116) = False from by decide,
      show (Char.ofNat 114 = Char.ofNat 110) = False from by decide,
      show (Char.ofNat 114 = Char.ofNat 102) = False from by decide,
      show (Char.ofNat 114 = Char.ofNat 114) = True from by simp, if_false, if_true, ite_true, ite_false]
  by_cases h8 : c.toNat < 32
  · simp only [h1, h2, h3, h4, h5, h6, h7, h8, if_false, if_true, ite_true, ite_false,
      List.cons_append, List.nil_append]
    have hdiv : c.toNat / 16 < 16 := by omega
    have hmod : c.toNat % 16 < 16 := Nat.mod_lt _ (by omega)
    have hd := hexVal_hexDigitChar hdiv
    have hm := hexVal_hexDigitChar hmod
    rw [readStr.eq_def]
    simp only [show (bsC = qC) = False from by decide,
      show (bsC = bsC) = True from by simp,
      show (Char.ofNat 117 = qC) = False from by decide,
      show (Char.ofNat 117 = bsC) = False from by decide,
      show (Char.ofNat 117 = Char.ofNat 47) = False from by decide,
      show (Char.ofNat 117 = Char.ofNat 98) = False from by decide,
      show (Char.ofNat 117 = Char.ofNat 116) = False from by decide,
      show (Char.ofNat 117 = Char.ofNat 110) = False from by decide,
      show (Char.ofNat 117 = Char.ofNat 102) = False from by decide,
      show (Char.ofNat 117 = Char.ofNat 114) = False from by decide,
      show (Char.ofNat 117 = Char.ofNat 117) = True from by simp,
      show isHexDigit (Char.ofNat 48) = true from by decide,
      hd.2, hm.2, if_false, if_true, ite_true, ite_false]
    simp only [Bool.and_self, Bool.true_and, and_self, true_and, if_true, ite_true]
    simp only [show hexVal (Char.ofNat 48) = 0 from by decide, hd.1, hm.1]
    have hval : 0 * 4096 + 0 * 256 + c.toNat / 16 * 16 + c.toNat % 16 = c.toNat := by omega
    rw [hval, Char.ofNat_toNat]
  · simp only [h1, h2, h3, h4, h5, h6, h7, h8, if_false, ite_false, List.cons_append,
      List.nil_append]
    rw [readStr.eq_def]
    simp only [h1, h2, if_false, ite_false]

/-- Round trip for string bodies: reading back the escaped characters,
up to the closing quote, recovers the original characters. -/
theorem readStr_escChars (cs : List Char) (rest acc : List Char) :
    readStr (escChars cs ++ qC :: rest) acc = some (acc.reverse ++ cs, rest) := by
  induction cs generalizing acc with
  | nil =>
    simp only [escChars, List.map_nil, List.flatten, List.nil_append]
    rw [readStr.eq_def]
    simp
  | cons c cs ih =>
    have hstep : escChars (c :: cs) = escapeChar c ++ escChars cs := by
      simp [escChars]
    rw [hstep, List.append_assoc, readStr_escapeChar, ih]
    simp

/-! ### JSON values

A model of the JavaScript value universe reachable through JSON.parse /
JSON.stringify: null, booleans, numbers, strings, arrays and objects with
insertion-ordered fields.

Numbers model the JavaScript double domain as follows.  A parsed numeric
literal is taken at its exact decimal value and then classified against
the exact IEEE-754 binary64 rounding thresholds: magnitudes of at least
2^1024 - 2^970 round to Infinity (JNum.inf / JNum.negInf), magnitudes of
at most 2^-1075 round to zero, integral values are integers (JNum.int),
and the remaining finite values are kept as exact decimals (JNum.dec).
The one idealization left is 53-bit mantissa rounding of finite values:
JNum.int keeps every integer exactly, while the platform rounds
magnitudes of 2^53 and above.  Round-trip theorems are therefore stated
over safe values (safeB): integers below 2^53, where the model and the
platform agree bit for bit.  JSON.stringify writes the non-finite
numbers as null, as the platform does. -/

inductive JNum where
  | int (n : Int) : JNum
  | dec (m : Int) (e : Int) : JNum
  | inf : JNum
  | negInf : JNum

inductive Json where
  | null : Json
  | bool (b : Bool) : Json
  | num (n : JNum) : Json
  | str (s : String) : Json
  | arr (elems : List Json) : Json
  | obj (fields : List (String × Json)) : Json

def lbC : Char := Char.ofNat 123

def rbC : Char := Char.ofNat 125

def strLit (s : String) : List Char := qC :: escChars s.data ++ [qC]

def intChars (n : Int) : List Char :=
  if n < 0 then Char.ofNat 45 :: natToChars n.natAbs else natToChars n.natAbs

/-- Decimal rendering of an exact non-integral decimal m·10^e (e < 0 in
canonical use): sign, integral part, point, zero-padded fraction. -/
def decChars (m : Int) (e : Int) : List Char :=
  if 0 ≤ e then intChars (m * 10 ^ e.toNat)
  else
    let p := 10 ^ (-e).toNat
    let a := m.natAbs
    let fd := natToChars (a % p)
    (if m < 0 then [Char.ofNat 45] else []) ++ natToChars (a / p)
      ++ Char.ofNat 46 :: (List.replicate ((-e).toNat - fd.length) (Char.ofNat 48) ++ fd)

/-- JSON.stringify on a number: non-finite doubles are written as null. -/
def jnChars : JNum → List Char
  | .int n => intChars n
  | .dec m e => decChars m e
  | .inf => [Char.ofNat 110, Char.ofNat 117, Char.ofNat 108, Char.ofNat 108]
  | .negInf => [Char.ofNat 110, Char.ofNat 117, Char.ofNat 108, Char.ofNat 108]

mutual
def jChars : Json → List Char
  | .null => [Char.ofNat 110, Char.ofNat 117, Char.ofNat 108, Char.ofNat 108]
  | .bool true => [Char.ofNat 116, Char.ofNat 114, Char.ofNat 117, Char.ofNat 101]
  | .bool false =>
      [Char.ofNat 102, Char.ofNat 97, Char.ofNat 108, Char.ofNat 115, Char.ofNat 101]
  | .num n => jnChars n
  | .str s => strLit s
  | .arr [] => [Char.ofNat 91, Char.ofNat 93]
  | .arr (x :: xs) => Char.ofNat 91 :: (jChars x ++ jTail xs ++ [Char.ofNat 93])
  | .obj [] => [lbC, rbC]
  | .obj (f :: fs) => lbC :: (fChars f ++ fTail fs ++ [rbC])

def jTail : List Json → List Char
  | [] => []
  | x :: xs => Char.ofNat 44 :: (jChars x ++ jTail xs)

def fChars : String × Json → List Char
  | (k, v) => strLit k ++ Char.ofNat 58 :: jChars v

def fTail : List (String × Json) → List Char
  | [] => []
  | f :: fs => Char.ofNat 44 :: (fChars f ++ fTail fs)
end

/-- Model of JSON.stringify on the value universe above. -/
def JSONstringify (j : Json) : String := String.mk (jChars j)

/-- Model of the JavaScript object-key update used when building object
values: an existing key is overwritten in place, a fresh key is appended. -/
def objSet (fs : List (String × Json)) (k : String) (v : Json) : List (String × Json) :=
  if (fs.map Prod.fst).contains k then
    fs.map (fun p => if p.1 = k then (k, v) else p)
  else fs ++ [(k, v)]

/-- Distinctness of an object key list. -/
def dKeys : List String → Bool
  | [] => true
  | k :: ks => (!ks.contains k) && dKeys ks

mutual
def wfB : Json → Bool
  | .null => true
  | .bool _ => true
  | .num _ => true
  | .str _ => true
  | .arr xs => wfL xs
  | .obj fs => dKeys (fs.map Prod.fst) && wfF fs

def wfL : List Json → Bool
  | [] => true
  | x :: xs => wfB x && wfL xs

def wfF : List (String × Json) → Bool
  | [] => true
  | f :: fs => wfB f.2 && wfF fs
end

/-- A number on which the exact model and the platform double agree bit
for bit: an integer in the safe range. -/
def safeNum : JNum → Bool
  | .int n => n.natAbs < 2 ^ 53
  | _ => false

mutual
def safeB : Json → Bool
  | .null => true
  | .bool _ => true
  | .num jn => safeNum jn
  | .str _ => true
  | .arr xs => safeL xs
  | .obj fs => safeF fs

def safeL : List Json → Bool
  | [] => true
  | x :: xs => safeB x && safeL xs

def safeF : List (String × Json) → Bool
  | [] => true
  | f :: fs => safeB f.2 && safeF fs
end

/-! ### JSON reader, modelling JSON.parse -/

def isWsC (c : Char) : Bool :=
  c = Char.ofNat 32 || c = Char.ofNat 9 || c = Char.ofNat 10 || c = Char.ofNat 13

def skipWs (l : List Char) : List Char := l.dropWhile isWsC

/-- Digit reader that also counts the digits consumed (for the fraction
part, whose length fixes the decimal exponent). -/
def readDigitsK : List Char → Nat → Nat → Nat × Nat × List Char
  | [], acc, k => (acc, k, [])
  | c :: rest, acc, k =>
    if isDigit c then readDigitsK rest (digStep acc c) (k + 1) else (acc, k, c :: rest)

/-- Exact binary64 overflow threshold: decimal magnitudes of at least
2^1024 - 2^970 round to Infinity under round-to-nearest-even. -/
def infThreshold : Nat := 2 ^ 1024 - 2 ^ 970

/-- Does m·10^e reach the Infinity threshold (exact integer comparison)? -/
def overflows (m : Nat) (e : Int) : Bool :=
  if 0 ≤ e then infThreshold ≤ m * 10 ^ e.toNat
  else infThreshold * 10 ^ (-e).toNat ≤ m

/-- Does m·10^e round to zero, i.e. is it at most 2^-1075 (exact integer
comparison)? -/
def underflows (m : Nat) (e : Int) : Bool :=
  if 0 ≤ e then m * 10 ^ e.toNat * 2 ^ 1075 ≤ 1
  else m * 2 ^ 1075 ≤ 10 ^ (-e).toNat

def condNeg (neg : Bool) (n : Nat) : Int :=
  if neg then -(n : Int) else (n : Int)

/-- Classify the exact decimal value (sign, m, e) into the double domain:
zero, Infinity past the overflow threshold, zero below the underflow
threshold, an integer when the value is integral, an exact decimal
otherwise. -/
def assembleNum (neg : Bool) (m : Nat) (e : Int) : JNum :=
  if m = 0 then .int 0
  else if overflows m e then (if neg then .negInf else .inf)
  else if underflows m e then .int 0
  else if 0 ≤ e then .int (condNeg neg (m * 10 ^ e.toNat))
  else if m % 10 ^ (-e).toNat = 0 then .int (condNeg neg (m / 10 ^ (-e).toNat))
  else .dec (condNeg neg m) e

/-- Finish a number literal: integer part i, fraction digits with value f
and count k, exponent x; the exact value is (i·10^k + f)·10^(x-k). -/
def finishNum (neg : Bool) (i f k : Nat) (x : Int) : JNum :=
  assembleNum neg (i * 10 ^ k + f) (x - (k : Int))

/-- Optional exponent part of a number literal. -/
def readExp (neg : Bool) (i f k : Nat) (l : List Char) :
    Option (JNum × List Char) :=
  match l with
  | [] => some (finishNum neg i f k 0, [])
  | c :: r =>
    if c = Char.ofNat 101 || c = Char.ofNat 69 then
      match r with
      | [] => none
      | d :: r2 =>
        if d = Char.ofNat 43 then
          match r2 with
          | d2 :: r3 =>
            if isDigit d2 then
              match readDigits r3 (d2.toNat - 48) with
              | (x, r4) => some (finishNum neg i f k ((x : Int)), r4)
            else none
          | [] => none
        else if d = Char.ofNat 45 then
          match r2 with
          | d2 :: r3 =>
            if isDigit d2 then
              match readDigits r3 (d2.toNat - 48) with
              | (x, r4) => some (finishNum neg i f k (-(x : Int)), r4)
            else none
          | [] => none
        else if isDigit d then
          match readDigits r2 (d.toNat - 48) with
          | (x, r3) => some (finishNum neg i f k ((x : Int)), r3)
        else none
    else some (finishNum neg i f k 0, c :: r)

/-- Optional fraction part of a number literal (at least one digit after
the point, as JSON requires). -/
def readFracExp (neg : Bool) (i : Nat) (l : List Char) :
    Option (JNum × List Char) :=
  match l with
  | [] => readExp neg i 0 0 []
  | c :: r =>
    if c = Char.ofNat 46 then
      match r with
      | [] => none
      | d :: r2 =>
        if isDigit d then
          match readDigitsK r2 (digStep 0 d) 1 with
          | (f, k, r3) => readExp neg i f k r3
        else none
    else readExp neg i 0 0 (c :: r)

/-- Read a JSON number literal -? (0 | [1-9][0-9]*) frac? exp? — leading
zeros are rejected exactly as JSON.parse rejects them — and round its
exact decimal value into the double domain. -/
def readNumber (l : List Char) : Option (JNum × List Char) :=
  match l with
  | [] => none
  | c :: r =>
    if c = Char.ofNat 45 then
      match r with
      | [] => none
      | d :: r2 =>
        if d = Char.ofNat 48 then readFracExp true 0 r2
        else if isDigit d then
          match readDigits r2 (digStep 0 d) with
          | (i, r3) => readFracExp true i r3
        else none
    else if c = Char.ofNat 48 then readFracExp false 0 r
    else if isDigit c then
      match readDigits r (digStep 0 c) with
      | (i, r2) => readFracExp false i r2
    else none

mutual
def pVal : Nat → List Char → Option (Json × List Char)
  | 0, _ => none
  | fuel + 1, l =>
    match skipWs l with
    | [] => none
    | c :: r =>
      if c = Char.ofNat 110 then
        match r with
        | u :: l1 :: l2 :: r2 =>
          if u = Char.ofNat 117 && l1 = Char.ofNat 108 && l2 = Char.ofNat 108 then
            some (.null, r2)
          else none
        | _ => none
      else if c = Char.ofNat 116 then
        match r with
        | a :: b :: d :: r2 =>
          if a = Char.ofNat 114 && b = Char.ofNat 117 && d = Char.ofNat 101 then
            some (.bool true, r2)
          else none
        | _ => none
      else if c = Char.ofNat 102 then
        match r with
        | a :: b :: d :: e :: r2 =>
          if a = Char.ofNat 97 && b = Char.ofNat 108 && d = Char.ofNat 115
              && e = Char.ofNat 101 then
            some (.bool false, r2)
          else none
        | _ => none
      else if c = qC then
        match readStr r [] with
        | some (cs, r2) => some (.str (String.mk cs), r2)
        | none => none
      else if c = Char.ofNat 91 then
        match skipWs r with
        | d :: r2 =>
          if d = Char.ofNat 93 then some (.arr [], r2)
          else pElems fuel (d :: r2) []
        | [] => none
      else if c = lbC then
        match skipWs r with
        | d :: r2 =>
          if d = rbC then some (.obj [], r2)
          else pFields fuel (d :: r2) []
        | [] => none
      else
        match readNumber (c :: r) with
        | some (jn, r2) => some (.num jn, r2)
        | none => none

def pElems : Nat → List Char → List Json → Option (Json × List Char)
  | 0, _, _ => none
  | fuel + 1, l, acc =>
    match pVal fuel l with
    | none => none
    | some (j, r) =>
      match skipWs r with
      | d :: r2 =>
        if d = Char.ofNat 44 then pElems fuel r2 (acc ++ [j])
        else if d = Char.ofNat 93 then some (.arr (acc ++ [j]), r2)
        else none
      | [] => none

def pFields : Nat → List Char → List (String × Json) → Option (Json × List Char)
  | 0, _, _ => none
  | fuel + 1, l, acc =>
    match skipWs l with
    | c :: r =>
      if c = qC then
        match readStr r [] with
        | some (kcs, r2) =>
          match skipWs r2 with
          | d :: r3 =>
            if d = Char.ofNat 58 then
              match pVal fuel r3 with
              | some (v, r4) =>
                match skipWs r4 with
                | e :: r5 =>
                  if e = Char.ofNat 44 then pFields fuel r5 (objSet acc (String.mk kcs) v)
                  else if e = rbC then some (.obj (objSet acc (String.mk kcs) v), r5)
                  else none
                | [] => none
              | none => none
            else none
          | [] => none
        | none => none
      else none
    | [] => none
end

/-- Model of JSON.parse: read one value, allow surrounding whitespace,
reject trailing garbage; any failure corresponds to the exception
JSON.parse throws. -/
def JSONparse (s : String) : Option Json :=
  match pVal (s.length + 1) s.data with
  | some (j, r) => if skipWs r = [] then some j else none
  | none => none

/-! ### Round trip: JSONparse after JSONstringify -/

mutual
def jFuel : Json → Nat
  | .null => 1
  | .bool _ => 1
  | .num _ => 1
  | .str _ => 1
  | .arr xs => 1 + lFuel xs
  | .obj fs => 1 + fFuel fs

def lFuel : List Json → Nat
  | [] => 0
  | x :: xs => 1 + jFuel x + lFuel xs

def fFuel : List (String × Json) → Nat
  | [] => 0
  | f :: fs => 1 + jFuel f.2 + fFuel fs
end

/-- Characters that could continue a number literal: digits, the decimal
point, and the exponent markers. -/
def numCont (c : Char) : Bool :=
  isDigit c || c = Char.ofNat 46 || c = Char.ofNat 101 || c = Char.ofNat 69

/-- Input whose head cannot be mistaken for more of a number literal. -/
def ndh (l : List Char) : Prop :=
  l = [] ∨ ∃ c cs, l = c :: cs ∧ numCont c = false

theorem isDigit_toNat {c : Char} (h : isDigit c = true) : 48 ≤ c.toNat ∧ c.toNat ≤ 57 := by
  simp only [isDigit, Bool.and_eq_true, decide_eq_true_eq] at h
  exact h

theorem isDigit_ne {c : Char} (h : isDigit c = true) (m : Nat)
    (hm : m < 48 ∨ 57 < m) (hv : (Char.ofNat m).toNat = m) :
    (c = Char.ofNat m) = False := by
  have hb := isDigit_toNat h
  apply eq_false
  intro hc
  rw [hc, hv] at hb
  omega

theorem isWsC_of_isDigit {c : Char} (h : isDigit c = true) : isWsC c = false := by
  simp only [isWsC, Bool.or_eq_false_iff, decide_eq_false_iff_not]
  refine ⟨⟨⟨?_, ?_⟩, ?_⟩, ?_⟩ <;> intro hc <;> rw [hc] at h <;> exact absurd h (by decide)

theorem skipWs_cons {c : Char} (t : List Char) (h : isWsC c = false) :
    skipWs (c :: t) = c :: t := by
  simp [skipWs, List.dropWhile, h]

theorem ndh_isDigit {l : List Char} (h : ndh l) :
    l = [] ∨ ∃ c cs, l = c :: cs ∧ isDigit c = false := by
  rcases h with rfl | ⟨c, cs, rfl, hc⟩
  · exact Or.inl rfl
  · refine Or.inr ⟨c, cs, rfl, ?_⟩
    simp only [numCont, Bool.or_eq_false_iff] at hc
    exact hc.1.1.1

theorem numCont_split {c : Char} (h : numCont c = false) :
    isDigit c = false ∧ (c = Char.ofNat 46) = False ∧ (c = Char.ofNat 101) = False
      ∧ (c = Char.ofNat 69) = False := by
  simp only [numCont, Bool.or_eq_false_iff, decide_eq_false_iff_not] at h
  exact ⟨h.1.1.1, eq_false h.1.1.2, eq_false h.1.2, eq_false h.2⟩

theorem natToChars_head_digit (a : Nat) :
    ∃ c cs, natToChars a = c :: cs ∧ isDigit c = true := by
  match hnc : natToChars a with
  | [] => exact absurd hnc (natToChars_ne_nil _)
  | c :: cs =>
    have hd : isDigit c = true := by
      have := natToChars_all_digits a c
      rw [hnc] at this
      exact this (List.mem_cons_self c cs)
    exact ⟨c, cs, rfl, hd⟩

theorem natToCharsAux_head_ne_zero (a : Nat) (h : 0 < a) :
    ∃ c cs, natToCharsAux a [] = c :: cs ∧ isDigit c = true
      ∧ (c = Char.ofNat 48) = False := by
  induction a using Nat.strong_induction_on with
  | _ a ih =>
    match a, h with
    | m + 1, _ =>
      rw [natToCharsAux]
      rcases Nat.eq_zero_or_pos ((m + 1) / 10) with h0 | hpos
      · rw [h0, natToCharsAux]
        have hm10 : m + 1 < 10 := by omega
        have hmod : (m + 1) % 10 = m + 1 := Nat.mod_eq_of_lt hm10
        refine ⟨_, _, rfl, isDigit_digitChar (by omega), eq_false ?_⟩
        intro hc
        have hv := digitChar_toNat (n := (m + 1) % 10) (by omega)
        rw [hc] at hv
        have h48 : (Char.ofNat 48).toNat = 48 := by decide
        omega
      · rw [natToCharsAux_acc]
        obtain ⟨c, cs, h1, h2, h3⟩ :=
          ih ((m + 1) / 10) (Nat.div_lt_self (Nat.succ_pos m) (by omega)) hpos
        exact ⟨c, cs ++ [digitChar ((m + 1) % 10)], by rw [h1]; rfl, h2, h3⟩

theorem natToChars_head_ne_zero (a : Nat) (h : 0 < a) :
    ∃ c cs, natToChars a = c :: cs ∧ isDigit c = true
      ∧ (c = Char.ofNat 48) = False := by
  unfold natToChars
  rw [if_neg (by omega)]
  exact natToCharsAux_head_ne_zero a h

theorem intChars_head (n : Int) :
    ∃ c cs, intChars n = c :: cs ∧ isWsC c = false ∧ (c = Char.ofNat 93) = False := by
  unfold intChars
  split
  · exact ⟨_, _, rfl, by decide, by decide⟩
  · obtain ⟨c, cs, h1, hd⟩ := natToChars_head_digit n.natAbs
    exact ⟨c, cs, h1, isWsC_of_isDigit hd, isDigit_ne hd 93 (by omega) (by decide)⟩

theorem decChars_head (m e : Int) :
    ∃ c cs, decChars m e = c :: cs ∧ isWsC c = false ∧ (c = Char.ofNat 93) = False := by
  unfold decChars
  split
  · exact intChars_head _
  · dsimp only
    by_cases hm : m < 0
    · rw [if_pos hm]
      exact ⟨_, _, rfl, by decide, by decide⟩
    · rw [if_neg hm, List.nil_append]
      obtain ⟨c, cs, h1, hd⟩ := natToChars_head_digit (m.natAbs / 10 ^ (-e).toNat)
      rw [h1, List.cons_append]
      exact ⟨c, _, rfl, isWsC_of_isDigit hd, isDigit_ne hd 93 (by omega) (by decide)⟩

theorem jChars_head (j : Json) :
    ∃ c cs, jChars j = c :: cs ∧ isWsC c = false ∧ (c = Char.ofNat 93) = False := by
  cases j with
  | null => exact ⟨_, _, rfl, by decide, by decide⟩
  | bool b => cases b <;> exact ⟨_, _, rfl, by decide, by decide⟩
  | num jn =>
    cases jn with
    | int n => exact intChars_head n
    | dec m e => exact decChars_head m e
    | inf => exact ⟨_, _, rfl, by decide, by decide⟩
    | negInf => exact ⟨_, _, rfl, by decide, by decide⟩
  | str s => exact ⟨_, _, rfl, by decide, by decide⟩
  | arr xs => cases xs <;> exact ⟨_, _, rfl, by decide, by decide⟩
  | obj fs => cases fs <;> exact ⟨_, _, rfl, by decide, by decide⟩

theorem jFuel_pos (j : Json) : 1 ≤ jFuel j := by
  cases j <;> simp [jFuel]

/-! ### Reading back an integer literal -/

theorem readFracExp_flat (neg : Bool) (i : Nat) (rest : List Char) (hr : ndh rest) :
    readFracExp neg i rest = some (finishNum neg i 0 0 0, rest) := by
  rcases hr with rfl | ⟨c, cs, rfl, hc⟩
  · rfl
  · obtain ⟨hd, h46, h101, h69⟩ := numCont_split hc
    rw [readFracExp.eq_def]
    simp only [h46, if_false, ite_false]
    rw [readExp.eq_def]
    simp only [h101, h69, decide_False, Bool.or_self, Bool.false_eq_true, if_false, ite_false]

theorem finishNum_flat (neg : Bool) (a : Nat) :
    finishNum neg a 0 0 0 = assembleNum neg a 0 := by
  simp [finishNum]

theorem two_pow_le_two_pow {a b : Nat} (h : a ≤ b) : (2 : Nat) ^ a ≤ 2 ^ b :=
  Nat.pow_le_pow_right (by omega) h

theorem overflows_safe (a : Nat) (h : a < 2 ^ 53) : overflows a 0 = false := by
  have h1 : (2 : Nat) ^ 53 ≤ 2 ^ 970 := two_pow_le_two_pow (by omega)
  have h2 : (2 : Nat) ^ 970 * 2 ≤ 2 ^ 1024 := by
    have he : (2 : Nat) ^ 970 * 2 = 2 ^ 971 := (pow_succ 2 970).symm
    rw [he]
    exact two_pow_le_two_pow (by omega)
  unfold overflows infThreshold
  rw [if_pos (le_refl (0 : Int))]
  simp only [Int.toNat_zero, pow_zero, mul_one, decide_eq_false_iff_not]
  omega

theorem underflows_pos (a : Nat) (h : 0 < a) : underflows a 0 = false := by
  have h2 : (2 : Nat) ≤ 2 ^ 1075 := by
    have he : (2 : Nat) = 2 ^ 1 := (pow_one 2).symm
    rw [he]
    exact two_pow_le_two_pow (by omega)
  have h3 : 1 * 2 ^ 1075 ≤ a * 2 ^ 1075 := Nat.mul_le_mul_right _ (by omega)
  unfold underflows
  rw [if_pos (le_refl (0 : Int))]
  simp only [Int.toNat_zero, pow_zero, mul_one, decide_eq_false_iff_not]
  omega

theorem assembleNum_safe (neg : Bool) (a : Nat) (h0 : 0 < a) (h53 : a < 2 ^ 53) :
    assembleNum neg a 0 = .int (condNeg neg a) := by
  unfold assembleNum
  rw [if_neg (by omega), overflows_safe a h53, underflows_pos a h0]
  simp only [Bool.false_eq_true, if_false, ite_false]
  rw [if_pos (le_refl (0 : Int))]
  simp only [Int.toNat_zero, pow_zero, mul_one]

theorem readNumber_nat (a : Nat) (rest : List Char) (h53 : a < 2 ^ 53)
    (hr : ndh rest) :
    readNumber (natToChars a ++ rest) = some (.int (a : Int), rest) := by
  rcases Nat.eq_zero_or_pos a with rfl | hpos
  · have h1 : natToChars 0 = [Char.ofNat 48] := rfl
    rw [h1, List.singleton_append, readNumber.eq_def]
    simp only [show (Char.ofNat 48 = Char.ofNat 45) = False from by decide,
      show (Char.ofNat 48 = Char.ofNat 48) = True from by simp,
      if_false, if_true, ite_true, ite_false]
    rw [readFracExp_flat _ _ _ hr]
    rfl
  · obtain ⟨c, cs, h1, hd, h48⟩ := natToChars_head_ne_zero a hpos
    have hrd : readDigits (cs ++ rest) (digStep 0 c) = (a, rest) := by
      have hrr := readDigits_natToChars a rest (ndh_isDigit hr)
      rw [h1, List.cons_append, readDigits, if_pos hd] at hrr
      exact hrr
    rw [h1, List.cons_append, readNumber.eq_def]
    simp only [isDigit_ne hd 45 (by omega) (by decide), h48, hd,
      if_false, if_true, ite_true, ite_false]
    rw [hrd]
    dsimp only
    rw [readFracExp_flat _ _ _ hr, finishNum_flat, assembleNum_safe _ _ hpos h53]
    simp [condNeg]

theorem readNumber_negInt (a : Nat) (rest : List Char) (h0 : 0 < a) (h53 : a < 2 ^ 53)
    (hr : ndh rest) :
    readNumber (Char.ofNat 45 :: (natToChars a ++ rest))
      = some (.int (-(a : Int)), rest) := by
  obtain ⟨c, cs, h1, hd, h48⟩ := natToChars_head_ne_zero a h0
  have hrd : readDigits (cs ++ rest) (digStep 0 c) = (a, rest) := by
    have hrr := readDigits_natToChars a rest (ndh_isDigit hr)
    rw [h1, List.cons_append, readDigits, if_pos hd] at hrr
    exact hrr
  rw [h1, List.cons_append, readNumber.eq_def]
  simp only [show (Char.ofNat 45 = Char.ofNat 45) = True from by simp,
    h48, hd, if_false, if_true, ite_true, ite_false]
  rw [hrd]
  dsimp only
  rw [readFracExp_flat _ _ _ hr, finishNum_flat, assembleNum_safe _ _ h0 h53]
  simp [condNeg]

theorem contains_true_of_mem {l : List String} {a : String} (hm : a ∈ l) :
    l.contains a = true := by
  rw [List.contains_iff_exists_mem_beq]
  exact ⟨a, hm, by simp⟩

theorem dKeys_split (A : List String) (k : String) (B : List String)
    (h : dKeys (A ++ k :: B) = true) : A.contains k = false := by
  induction A with
  | nil => rfl
  | cons a A ih =>
    rw [List.cons_append, dKeys, Bool.and_eq_true] at h
    obtain ⟨h1, h2⟩ := h
    have ha : (A ++ k :: B).contains a = false := by
      cases hcc : (A ++ k :: B).contains a
      · rfl
      · rw [hcc] at h1; simp at h1
    have hak : k ≠ a := by
      intro hk
      subst hk
      rw [contains_true_of_mem (by simp)] at ha
      cases ha
    rw [List.contains_cons]
    have hA := ih h2
    have hba : (k == a) = false := by simp [hak]
    rw [hba, hA]
    rfl

theorem objSet_append (acc : List (String × Json)) (k : String) (v : Json)
    (fs : List (String × Json))
    (h : dKeys ((acc ++ (k, v) :: fs).map Prod.fst) = true) :
    objSet acc k v = acc ++ [(k, v)] := by
  have hmap : (acc ++ (k, v) :: fs).map Prod.fst
      = acc.map Prod.fst ++ k :: fs.map Prod.fst := by simp
  rw [hmap] at h
  have hc := dKeys_split _ _ _ h
  unfold objSet
  rw [hc]
  simp

mutual

theorem pv_rt : ∀ (fuel : Nat) (j : Json) (rest : List Char),
    wfB j = true → safeB j = true → jFuel j ≤ fuel → ndh rest →
    pVal fuel (jChars j ++ rest) = some (j, rest)
  | 0, j, rest => by
    intro _ _ hf _
    exact absurd hf (by have := jFuel_pos j; omega)
  | fuel + 1, j, rest => by
    intro hwf hsafe hf hr
    cases j with
    | null => rfl
    | bool b => cases b <;> rfl
    | num jn =>
      cases jn with
      | dec m e => exact absurd hsafe (by simp [safeB, safeNum])
      | inf => exact absurd hsafe (by simp [safeB, safeNum])
      | negInf => exact absurd hsafe (by simp [safeB, safeNum])
      | int n =>
        have hn53 : n.natAbs < 2 ^ 53 := by
          have hs : safeNum (.int n) = true := hsafe
          simpa [safeNum] using hs
        rcases lt_or_le n 0 with hneg | hpos
        · have hshape : jChars (.num (.int n)) ++ rest
              = Char.ofNat 45 :: (natToChars n.natAbs ++ rest) := by
            simp [jChars, jnChars, intChars, hneg]
          rw [hshape]
          simp only [pVal]
          rw [skipWs_cons _ (by decide)]
          simp only [show (Char.ofNat 45 = Char.ofNat 110) = False from by decide,
            show (Char.ofNat 45 = Char.ofNat 116) = False from by decide,
            show (Char.ofNat 45 = Char.ofNat 102) = False from by decide,
            show (Char.ofNat 45 = qC) = False from by decide,
            show (Char.ofNat 45 = Char.ofNat 91) = False from by decide,
            show (Char.ofNat 45 = lbC) = False from by decide,
            if_false, ite_false]
          rw [readNumber_negInt n.natAbs rest (by omega) hn53 hr]
          dsimp only
          have hn : -((n.natAbs : Int)) = n := by omega
          rw [hn]
        · have hshape : jChars (.num (.int n)) ++ rest = natToChars n.natAbs ++ rest := by
            simp [jChars, jnChars, intChars]
            omega
          rw [hshape]
          match hnc : natToChars n.natAbs with
          | [] => exact absurd hnc (natToChars_ne_nil _)
          | d :: ds =>
            have hdig : isDigit d = true := by
              have := natToChars_all_digits n.natAbs d
              rw [hnc] at this
              exact this (List.mem_cons_self d ds)
            rw [List.cons_append]
            simp only [pVal]
            rw [skipWs_cons _ (isWsC_of_isDigit hdig)]
            simp only [isDigit_ne hdig 110 (by omega) (by decide),
              isDigit_ne hdig 116 (by omega) (by decide),
              isDigit_ne hdig 102 (by omega) (by decide),
              show qC = Char.ofNat 34 from rfl, isDigit_ne hdig 34 (by omega) (by decide),
              isDigit_ne hdig 91 (by omega) (by decide),
              show lbC = Char.ofNat 123 from rfl, isDigit_ne hdig 123 (by omega) (by decide),
              if_false, ite_false]
            rw [← List.cons_append, ← hnc,
              readNumber_nat n.natAbs rest hn53 hr]
            dsimp only
            have hn : ((n.natAbs : Int)) = n := by omega
            rw [hn]
    | str t =>
      have hshape : jChars (.str t) ++ rest = qC :: (escChars t.data ++ (qC :: rest)) := by
        simp [jChars, strLit]
      rw [hshape]
      simp only [pVal]
      rw [skipWs_cons _ (by decide)]
      simp only [show (qC = Char.ofNat 110) = False from by decide,
        show (qC = Char.ofNat 116) = False from by decide,
        show (qC = Char.ofNat 102) = False from by decide,
        show (qC = qC) = True from by simp,
        if_false, if_true, ite_true, ite_false]
      rw [readStr_escChars]
      simp
    | arr xs =>
      cases xs with
      | nil => rfl
      | cons x xs =>
        have hwl : wfB x = true ∧ wfL xs = true := by
          have : wfL (x :: xs) = true := hwf
          rw [wfL, Bool.and_eq_true] at this
          exact this
        have hsl : safeL (x :: xs) = true := hsafe
        have hshape : jChars (.arr (x :: xs)) ++ rest
            = Char.ofNat 91 :: (jChars x ++ (jTail xs ++ (Char.ofNat 93 :: rest))) := by
          simp [jChars]
        rw [hshape]
        simp only [pVal]
        rw [skipWs_cons _ (by decide)]
        simp only [show (Char.ofNat 91 = Char.ofNat 110) = False from by decide,
          show (Char.ofNat 91 = Char.ofNat 116) = False from by decide,
          show (Char.ofNat 91 = Char.ofNat 102) = False from by decide,
          show (Char.ofNat 91 = qC) = False from by decide,
          show (Char.ofNat 91 = Char.ofNat 91) = True from by simp,
          if_false, if_true, ite_true, ite_false]
        obtain ⟨c0, cs0, hx, hws, h93⟩ := jChars_head x
        rw [hx, List.cons_append, skipWs_cons _ hws]
        simp only [h93, if_false, ite_false]
        rw [← List.cons_append, ← hx]
        have hfe : lFuel (x :: xs) ≤ fuel := by
          have : jFuel (.arr (x :: xs)) = 1 + lFuel (x :: xs) := rfl
          omega
        have := pe_rt fuel x xs [] rest hwf hsl hfe
        rw [this]
        simp
    | obj fs =>
      cases fs with
      | nil => rfl
      | cons f fs =>
        obtain ⟨k, v⟩ := f
        have hwo : dKeys (((k, v) :: fs).map Prod.fst) = true
            ∧ wfB v = true ∧ wfF fs = true := by
          have : wfB (.obj ((k, v) :: fs)) = true := hwf
          rw [wfB, Bool.and_eq_true, wfF, Bool.and_eq_true] at this
          exact ⟨this.1, this.2⟩
        have hso : safeB v = true ∧ safeF fs = true := by
          have : safeF ((k, v) :: fs) = true := hsafe
          rw [safeF, Bool.and_eq_true] at this
          exact this
        have hshape : jChars (.obj ((k, v) :: fs)) ++ rest
            = lbC :: (strLit k ++ (Char.ofNat 58 ::
                (jChars v ++ (fTail fs ++ (rbC :: rest))))) := by
          simp [jChars, fChars]
        rw [hshape]
        simp only [pVal]
        rw [skipWs_cons _ (by decide)]
        simp only [show (lbC = Char.ofNat 110) = False from by decide,
          show (lbC = Char.ofNat 116) = False from by decide,
          show (lbC = Char.ofNat 102) = False from by decide,
          show (lbC = qC) = False from by decide,
          show (lbC = Char.ofNat 91) = False from by decide,
          show (lbC = lbC) = True from by simp,
          if_false, if_true, ite_true, ite_false]
        have hstr : strLit k ++ (Char.ofNat 58 :: (jChars v ++ (fTail fs ++ (rbC :: rest))))
            = qC :: (escChars k.data ++ (qC :: (Char.ofNat 58 ::
                (jChars v ++ (fTail fs ++ (rbC :: rest)))))) := by
          simp [strLit]
        rw [hstr, skipWs_cons _ (by decide)]
        simp only [show (qC = rbC) = False from by decide, if_false, ite_false]
        rw [← hstr]
        have hff : fFuel ((k, v) :: fs) ≤ fuel := by
          have : jFuel (.obj ((k, v) :: fs)) = 1 + fFuel ((k, v) :: fs) := rfl
          omega
        have hdk : dKeys (([] ++ (k, v) :: fs).map Prod.fst) = true := by
          simpa using hwo.1
        have := pf_rt fuel k v fs [] rest hwo.2.1 hso.1 hwo.2.2 hso.2 hdk hff
        rw [this]
        simp

theorem pe_rt : ∀ (fuel : Nat) (x : Json) (xs : List Json) (acc : List Json)
    (rest : List Char),
    wfL (x :: xs) = true → safeL (x :: xs) = true → lFuel (x :: xs) ≤ fuel →
    pElems fuel (jChars x ++ (jTail xs ++ (Char.ofNat 93 :: rest))) acc
      = some (.arr (acc ++ x :: xs), rest)
  | 0, x, xs, acc, rest => by
    intro _ _ hf
    exact absurd hf (by unfold lFuel; omega)
  | fuel + 1, x, xs, acc, rest => by
    intro hwf hsafe hf
    have hwl : wfB x = true ∧ wfL xs = true := by
      rw [wfL, Bool.and_eq_true] at hwf
      exact hwf
    have hsl : safeB x = true ∧ safeL xs = true := by
      rw [safeL, Bool.and_eq_true] at hsafe
      exact hsafe
    have hfx : jFuel x ≤ fuel := by
      unfold lFuel at hf
      omega
    simp only [pElems]
    have hnd : ndh (jTail xs ++ (Char.ofNat 93 :: rest)) := by
      cases xs with
      | nil => exact Or.inr ⟨Char.ofNat 93, rest, by simp [jTail], by decide⟩
      | cons y ys =>
        exact Or.inr ⟨Char.ofNat 44, (jChars y ++ jTail ys) ++ (Char.ofNat 93 :: rest),
          by simp [jTail], by decide⟩
    rw [pv_rt fuel x (jTail xs ++ (Char.ofNat 93 :: rest)) hwl.1 hsl.1 hfx hnd]
    cases xs with
    | nil =>
      simp only [jTail, List.nil_append]
      rw [skipWs_cons _ (by decide)]
      simp only [show (Char.ofNat 93 = Char.ofNat 44) = False from by decide,
        show (Char.ofNat 93 = Char.ofNat 93) = True from by simp,
        if_false, if_true, ite_true, ite_false]
    | cons y ys =>
      simp only [jTail, List.cons_append]
      rw [skipWs_cons _ (by decide)]
      simp only [show (Char.ofNat 44 = Char.ofNat 44) = True from by simp,
        if_true, ite_true]
      have hfy : lFuel (y :: ys) ≤ fuel := by
        have hp := jFuel_pos x
        simp only [lFuel] at hf ⊢
        omega
      have hrec := pe_rt fuel y ys (acc ++ [x]) rest hwl.2 hsl.2 hfy
      simp only [List.append_assoc]
      rw [hrec]
      simp

theorem pf_rt : ∀ (fuel : Nat) (k : String) (v : Json) (fs : List (String × Json))
    (acc : List (String × Json)) (rest : List Char),
    wfB v = true → safeB v = true → wfF fs = true → safeF fs = true →
    dKeys ((acc ++ (k, v) :: fs).map Prod.fst) = true →
    fFuel ((k, v) :: fs) ≤ fuel →
    pFields fuel (strLit k ++ (Char.ofNat 58 :: (jChars v ++ (fTail fs ++ (rbC :: rest))))) acc
      = some (.obj (acc ++ (k, v) :: fs), rest)
  | 0, k, v, fs, acc, rest => by
    intro _ _ _ _ _ hf
    exact absurd hf (by unfold fFuel; omega)
  | fuel + 1, k, v, fs, acc, rest => by
    intro hwv hsv hwfs hsfs hdk hf
    have hfv : jFuel v ≤ fuel := by
      simp only [fFuel] at hf
      omega
    simp only [pFields]
    have hstr : strLit k ++ (Char.ofNat 58 :: (jChars v ++ (fTail fs ++ (rbC :: rest))))
        = qC :: (escChars k.data ++ (qC :: (Char.ofNat 58 ::
            (jChars v ++ (fTail fs ++ (rbC :: rest)))))) := by
      simp [strLit]
    rw [hstr, skipWs_cons _ (by decide)]
    simp only [show (qC = qC) = True from by simp, if_true, ite_true]
    rw [readStr_escChars]
    simp only [List.reverse_nil, List.nil_append]
    rw [skipWs_cons _ (by decide)]
    simp only [show (Char.ofNat 58 = Char.ofNat 58) = True from by simp, if_true, ite_true]
    have hnd : ndh (fTail fs ++ (rbC :: rest)) := by
      cases fs with
      | nil => exact Or.inr ⟨rbC, rest, by simp [fTail], by decide⟩
      | cons g gs =>
        exact Or.inr ⟨Char.ofNat 44, (fChars g ++ fTail gs) ++ (rbC :: rest),
          by simp [fTail], by decide⟩
    rw [pv_rt fuel v (fTail fs ++ (rbC :: rest)) hwv hsv hfv hnd]
    have hmk : String.mk k.data = k := rfl
    cases fs with
    | nil =>
      simp only [fTail, List.nil_append]
      rw [skipWs_cons _ (by decide)]
      simp only [show (rbC = Char.ofNat 44) = False from by decide,
        show (rbC = rbC) = True from by simp,
        if_false, if_true, ite_true, ite_false]
      rw [hmk, objSet_append acc k v [] (by simpa using hdk)]
    | cons g gs =>
      obtain ⟨k2, v2⟩ := g
      have hww : wfB v2 = true ∧ wfF gs = true := by
        rw [wfF, Bool.and_eq_true] at hwfs
        exact hwfs
      have hss : safeB v2 = true ∧ safeF gs = true := by
        rw [safeF, Bool.and_eq_true] at hsfs
        exact hsfs
      simp only [fTail, fChars, List.cons_append]
      rw [skipWs_cons _ (by decide)]
      simp only [show (Char.ofNat 44 = Char.ofNat 44) = True from by simp,
        if_true, ite_true]
      rw [hmk, objSet_append acc k v ((k2, v2) :: gs) hdk]
      have hfg : fFuel ((k2, v2) :: gs) ≤ fuel := by
        have hp := jFuel_pos v
        simp only [fFuel] at hf ⊢
        omega
      have hdk2 : dKeys (((acc ++ [(k, v)]) ++ (k2, v2) :: gs).map Prod.fst) = true := by
        rw [← List.append_cons]
        exact hdk
      have hrec := pf_rt fuel k2 v2 gs (acc ++ [(k, v)]) rest hww.1 hss.1 hww.2 hss.2 hdk2 hfg
      simp only [List.append_assoc, List.cons_append]
      rw [hrec]
      simp

end

theorem natToChars_len_pos (n : Nat) : 1 ≤ (natToChars n).length := by
  have h := natToChars_ne_nil n
  cases hc : natToChars n
  · exact absurd hc h
  · simp

mutual

theorem jFuel_le : ∀ j : Json, jFuel j ≤ (jChars j).length
  | .null => by simp [jFuel, jChars]
  | .bool b => by cases b <;> simp [jFuel, jChars]
  | .num n => by
    simp only [jFuel, jChars]
    cases n with
    | int m =>
      have h := natToChars_len_pos m.natAbs
      simp only [jnChars, intChars]
      split
      · simp only [List.length_cons]
        omega
      · omega
    | dec m e =>
      obtain ⟨c, cs, hc, _, _⟩ := decChars_head m e
      simp [jnChars, hc]
    | inf => simp [jnChars]
    | negInf => simp [jnChars]
  | .str t => by
    simp [jFuel, jChars, strLit]
  | .arr [] => by simp [jFuel, lFuel, jChars]
  | .arr (x :: xs) => by
    have h1 := jFuel_le x
    have h2 := lFuel_le xs
    simp only [jFuel, lFuel, jChars, List.length_cons, List.length_append]
    omega
  | .obj [] => by simp [jFuel, fFuel, jChars]
  | .obj (f :: fs) => by
    have h1 := jFuel_le f.2
    have h2 := fFuel_le fs
    have h3 : fFuel (f :: fs) = 1 + jFuel f.2 + fFuel fs := rfl
    have h4 : (fChars f).length = (strLit f.1).length + 1 + (jChars f.2).length := by
      obtain ⟨k, v⟩ := f
      simp [fChars]
      omega
    simp only [jFuel, jChars, List.length_cons, List.length_append, h3, h4]
    omega

theorem lFuel_le : ∀ xs : List Json, lFuel xs ≤ (jTail xs).length
  | [] => by simp [lFuel, jTail]
  | x :: xs => by
    have h1 := jFuel_le x
    have h2 := lFuel_le xs
    simp only [lFuel, jTail, List.length_cons, List.length_append]
    omega

theorem fFuel_le : ∀ fs : List (String × Json), fFuel fs ≤ (fTail fs).length
  | [] => by simp [fFuel, fTail]
  | f :: fs => by
    have h1 := jFuel_le f.2
    have h2 := fFuel_le fs
    have h4 : (fChars f).length = (strLit f.1).length + 1 + (jChars f.2).length := by
      obtain ⟨k, v⟩ := f
      simp [fChars]
      omega
    simp only [fFuel, fTail, List.length_cons, List.length_append, h4]
    omega

end

/-- Round trip: for any well-formed (objects have distinct keys, as
JSON.parse always produces) and safe (every number a safe integer, so
the exact model and the platform double agree) JSON value, parsing the
serialized text recovers the value exactly. -/
theorem JSONparse_JSONstringify (j : Json) (hwf : wfB j = true)
    (hsafe : safeB j = true) :
    JSONparse (JSONstringify j) = some j := by
  have hp : pVal ((jChars j).length + 1) (jChars j) = some (j, []) := by
    have h := pv_rt ((jChars j).length + 1) j [] hwf hsafe
      (by have := jFuel_le j; omega) (Or.inl rfl)
    simpa using h
  unfold JSONparse JSONstringify
  rw [show (String.mk (jChars j)).data = jChars j from rfl,
    show (String.mk (jChars j)).length = (jChars j).length from rfl, hp]
  simp [skipWs]

/-! ### The reader only produces well-formed values -/

theorem contains_append (l1 l2 : List String) (a : String) :
    (l1 ++ l2).contains a = (l1.contains a || l2.contains a) := by
  simp [List.contains_eq_any_beq, List.any_append]

theorem wfL_iff (xs : List Json) : wfL xs = true ↔ ∀ x ∈ xs, wfB x = true := by
  induction xs with
  | nil => simp [wfL]
  | cons x xs ih => simp [wfL, Bool.and_eq_true, ih]

theorem wfF_iff (fs : List (String × Json)) :
    wfF fs = true ↔ ∀ f ∈ fs, wfB f.2 = true := by
  induction fs with
  | nil => simp [wfF]
  | cons f fs ih => simp [wfF, Bool.and_eq_true, ih]

theorem objSet_map_fst (fs : List (String × Json)) (k : String) (v : Json) :
    (objSet fs k v).map Prod.fst =
      if (fs.map Prod.fst).contains k then fs.map Prod.fst
      else fs.map Prod.fst ++ [k] := by
  unfold objSet
  split
  · rw [List.map_map]
    apply List.map_congr_left
    intro p _
    by_cases hpk : p.1 = k <;> simp [hpk]
  · simp

theorem dKeys_append_single (ks : List String) (k : String)
    (h1 : dKeys ks = true) (h2 : ks.contains k = false) :
    dKeys (ks ++ [k]) = true := by
  induction ks with
  | nil => simp [dKeys]
  | cons a ks ih =>
    rw [dKeys, Bool.and_eq_true] at h1
    rw [List.contains_cons, Bool.or_eq_false_iff] at h2
    rw [List.cons_append, dKeys, Bool.and_eq_true]
    refine ⟨?_, ih h1.2 h2.2⟩
    have hka : ¬ (k = a) := by simpa using h2.1
    have h1a : ks.contains a = false := by
      have hh := h1.1
      cases hc : ks.contains a
      · rfl
      · rw [hc] at hh
        simp at hh
    rw [contains_append, h1a]
    simp [List.contains_cons, beq_iff_eq]
    exact fun he => hka he.symm

theorem dKeys_objSet (fs : List (String × Json)) (k : String) (v : Json)
    (h : dKeys (fs.map Prod.fst) = true) :
    dKeys ((objSet fs k v).map Prod.fst) = true := by
  rw [objSet_map_fst]
  split
  · exact h
  · exact dKeys_append_single _ _ h (by
      rename_i hc
      cases hcc : (fs.map Prod.fst).contains k
      · rfl
      · exact absurd hcc hc)

theorem wfF_objSet (fs : List (String × Json)) (k : String) (v : Json)
    (h : ∀ f ∈ fs, wfB f.2 = true) (hv : wfB v = true) :
    ∀ f ∈ objSet fs k v, wfB f.2 = true := by
  unfold objSet
  split
  · intro f hf
    rw [List.mem_map] at hf
    obtain ⟨p, hp, hpf⟩ := hf
    by_cases hpk : p.1 = k
    · rw [if_pos hpk] at hpf
      rw [← hpf]
      exact hv
    · rw [if_neg hpk] at hpf
      rw [← hpf]
      exact h p hp
  · intro f hf
    rcases List.mem_append.1 hf with hf1 | hf1
    · exact h f hf1
    · have : f = (k, v) := by simpa using hf1
      rw [this]
      exact hv

mutual

theorem pv_wf : ∀ (fuel : Nat) (l : List Char) (j : Json) (r : List Char),
    pVal fuel l = some (j, r) → wfB j = true
  | 0, l, j, r => by
    intro h
    exact absurd h (by simp [pVal])
  | fuel + 1, l, j, r => by
    intro h
    simp only [pVal] at h
    split at h
    · exact absurd h (by simp)
    · have hemp : ∀ x ∈ ([] : List Json), wfB x = true := by intro x hx; cases hx
      have hempf : ∀ f ∈ ([] : List (String × Json)), wfB f.2 = true := by
        intro f hf; cases hf
      have hempd : dKeys (([] : List (String × Json)).map Prod.fst) = true := rfl
      iterate 10 (all_goals (try split at h))
      all_goals try (exact pe_wf fuel _ _ _ _ h hemp)
      all_goals try (exact pf_wf fuel _ _ _ _ h hempf hempd)
      all_goals simp at h
      all_goals obtain ⟨h1, h2⟩ := h
      all_goals rw [← h1]
      all_goals rfl

theorem pe_wf : ∀ (fuel : Nat) (l : List Char) (acc : List Json) (j : Json) (r : List Char),
    pElems fuel l acc = some (j, r) → (∀ x ∈ acc, wfB x = true) → wfB j = true
  | 0, l, acc, j, r => by
    intro h _
    exact absurd h (by simp [pElems])
  | fuel + 1, l, acc, j, r => by
    intro h hacc
    simp only [pElems] at h
    cases hpv : pVal fuel l with
    | none =>
      rw [hpv] at h
      simp at h
    | some p =>
      obtain ⟨j0, r0⟩ := p
      rw [hpv] at h
      dsimp only at h
      have hw0 := pv_wf fuel l j0 r0 hpv
      have hacc2 : ∀ x ∈ acc ++ [j0], wfB x = true := by
        intro x hx
        rcases List.mem_append.1 hx with hx1 | hx1
        · exact hacc x hx1
        · have hxe : x = j0 := by simpa using hx1
          rw [hxe]
          exact hw0
      split at h
      · split at h
        · exact pe_wf fuel _ _ _ _ h hacc2
        · split at h
          · simp at h
            obtain ⟨h1, h2⟩ := h
            rw [← h1]
            exact (wfL_iff _).2 hacc2
          · simp at h
      · simp at h

theorem pf_wf : ∀ (fuel : Nat) (l : List Char) (acc : List (String × Json))
    (j : Json) (r : List Char),
    pFields fuel l acc = some (j, r) →
    (∀ f ∈ acc, wfB f.2 = true) → dKeys (acc.map Prod.fst) = true → wfB j = true
  | 0, l, acc, j, r => by
    intro h _ _
    exact absurd h (by simp [pFields])
  | fuel + 1, l, acc, j, r => by
    intro h hacc hdk
    simp only [pFields] at h
    split at h
    · split at h
      · split at h
        · rename_i kcs r2 hrs
          split at h
          · split at h
            · split at h
              · rename_i v0 r4 hpv
                have hw0 := pv_wf fuel _ v0 r4 hpv
                have hacc2 := wfF_objSet acc (String.mk kcs) v0 hacc hw0
                have hdk2 := dKeys_objSet acc (String.mk kcs) v0 hdk
                split at h
                · split at h
                  · exact pf_wf fuel _ _ _ _ h hacc2 hdk2
                  · split at h
                    · simp at h
                      obtain ⟨h1, h2⟩ := h
                      rw [← h1]
                      simp only [wfB, Bool.and_eq_true]
                      exact ⟨hdk2, (wfF_iff _).2 hacc2⟩
                    · simp at h
                · simp at h
              · simp at h
            · simp at h
          · simp at h
        · simp at h
      · simp at h
    · simp at h

end

theorem JSONparse_wf (s : String) (j : Json) (h : JSONparse s = some j) :
    wfB j = true := by
  unfold JSONparse at h
  cases hpv : pVal (s.length + 1) s.data with
  | none =>
    rw [hpv] at h
    simp at h
  | some p =>
    obtain ⟨j0, r0⟩ := p
    rw [hpv] at h
    dsimp only at h
    split at h
    · have hj : j0 = j := by simpa using h
      rw [← hj]
      exact pv_wf _ _ _ _ hpv
    · simp at h

/-! ### The application (src/index.tsx)

Shallow embedding of the App component state and its event handlers.
Browser and platform services (FileReader, URL.createObjectURL, clocks,
camera, the inference endpoint, localStorage cell) appear as explicit
inputs; localStorage is carried in the state as the value stored under
the single key used by the app. -/

structure MediaFile where
  name : String
  type : String
  content : List Nat

inductive Mode where
  | upload : Mode
  | live : Mode
deriving DecidableEq

structure AppState where
  file : Option MediaFile
  previewUrl : Option String
  promptText : String
  loading : Bool
  error : Option String
  result : Option Json
  history : Json
  mode : Mode
  isCameraOn : Bool
  stream : Option (List String)
  stoppedTracks : List String
  storage : Option String

/-- React initial state of the component plus the pre-existing content of
the localStorage cell. -/
def initialState (stored : Option String) : AppState :=
  { file := none, previewUrl := none, promptText := "", loading := false,
    error := none, result := none, history := .arr [], mode := .upload,
    isCameraOn := false, stream := none, stoppedTracks := [], storage := stored }

/-- Mount effect (index.tsx lines 290-299): read the stored history; a
falsy (absent or empty) value is skipped, a JSON.parse failure is caught
and only logged, otherwise the parsed value is installed verbatim. -/
def loadHistoryEffect (s : AppState) : AppState :=
  match s.storage with
  | none => s
  | some stored =>
    if stored = "" then s
    else
      match JSONparse stored with
      | some j => { s with history := j }
      | none => s

def startup (stored : Option String) : AppState :=
  loadHistoryEffect (initialState stored)

/-- handleStopCamera (lines 311-317): stop every track of the active
stream, drop the stream, mark the camera off. -/
def handleStopCamera (s : AppState) : AppState :=
  match s.stream with
  | some tracks =>
    { s with stoppedTracks := s.stoppedTracks ++ tracks, isCameraOn := false, stream := none }
  | none => { s with isCameraOn := false, stream := none }

/-- Model of URL.createObjectURL: a fresh session-scoped blob URL that
references the blob by identity; it does not contain the blob bytes. -/
def createObjectURL (blobId : String) : String := "blob:" ++ blobId

/-- handleFileChange (lines 359-368). -/
def handleFileChange (s : AppState) (selected : Option MediaFile) (blobId : String) :
    AppState :=
  let s1 := handleStopCamera s
  match selected with
  | some f =>
    { s1 with
        file := some f, previewUrl := some (createObjectURL blobId),
        result := none, error := none }
  | none => s1

/-- handleCapturePhoto (lines 335-357): rasterize the current frame,
encode as JPEG, wrap as a file named from the capture time, treat like a
selected file, return to upload mode; the camera is stopped on exit. -/
def handleCapturePhoto (s : AppState) (videoRef canvasRef ctx : Bool)
    (blob : Option (List Nat)) (now : Nat) (blobId : String) : AppState :=
  if videoRef && canvasRef then
    if ctx then
      match blob with
      | some bytes =>
        let capturedFile : MediaFile :=
          { name := "capture-" ++ natStr now ++ ".jpg", type := "image/jpeg",
            content := bytes }
        let s1 := { s with
          file := some capturedFile,
          previewUrl := some (createObjectURL blobId),
          result := none, error := none, mode := Mode.upload }
        handleStopCamera s1
      | none => handleStopCamera s
    else handleStopCamera s
  else handleStopCamera s

/-- JavaScript String.split on a comma separator. -/
def splitCommaGo : List Char → List Char → List String
  | [], acc => [String.mk acc.reverse]
  | c :: rest, acc =>
    if c = Char.ofNat 44 then String.mk acc.reverse :: splitCommaGo rest []
    else splitCommaGo rest (c :: acc)

/-- fileToBase64 (lines 252-258): the FileReader produces a data URL; the
code keeps the part at index 1 of the comma split. -/
def fileToBase64 (readerResult : String) : String :=
  (splitCommaGo readerResult.data []).getD 1 ""

inductive ReqPart where
  | inlineData (mimeType : String) (data : String) : ReqPart
  | text (t : String) : ReqPart

structure Request where
  model : String
  systemInstruction : String
  parts : List ReqPart

def apos : String := String.singleton (Char.ofNat 39)

def systemInstructionStr : String :=
  "You are a specialized bulldog behavior expert. Analyze the provided image, video, or audio and text to identify bulldog behaviors. Provide a concise, plain-language explanation and a simple, actionable tip for the owner. Your response must be in JSON format."

/-- The templated user-turn text (line 390). -/
def analyzeContents (promptText : String) : String :=
  "Analyze the bulldog" ++ apos ++ "s behavior in this media. Additional context from the owner: \"" ++ (if promptText = "" then "None" else promptText) ++ "\"."

/-- The user-turn text as the specification words it (image/video),
kept separate for comparison with the one the code builds. -/
def specContents (promptText : String) : String :=
  "Analyze the bulldog" ++ apos ++ "s behavior in this image/video. Additional context from the owner: \"" ++ (if promptText = "" then "None" else promptText) ++ "\"."

def analyzeFailMsg : String := "Failed to analyze the media. Please try again."

def noFileMsg : String := "Please upload or capture a media file first."

/-- Own enumerable properties of a JavaScript value, as object spread
collects them: object fields, array / string indices; primitives have
none. -/
def jsonOwnProps : Json → List (String × Json)
  | .obj fs => fs
  | .arr xs => xs.enum.map (fun p => (natStr p.1, p.2))
  | .str t => t.data.enum.map (fun p => (natStr p.1, Json.str (String.singleton p.2)))
  | _ => []

/-- The new HistoryItem object literal (lines 413-422): spread of the
parsed analysis result, then id, timestamp, file, prompt. -/
def mkHistoryItem (analysisResult : Json) (nowIso nowLocale : String)
    (dataUrl : Json) (mime : String) (prompt : String) : Json :=
  Json.obj (objSet (objSet (objSet (objSet (jsonOwnProps analysisResult)
    "id" (.str nowIso)) "timestamp" (.str nowLocale))
    "file" (.obj [("dataUrl", dataUrl), ("type", .str mime)]))
    "prompt" (.str prompt))

/-- Spreading a JavaScript value into an array literal: arrays spread to
their elements, strings to their characters, anything else throws. -/
def jsSpread : Json → Except Unit (List Json)
  | .arr xs => .ok xs
  | .str t => .ok (t.data.map (fun c => Json.str (String.singleton c)))
  | _ => .error ()

/-- The file.dataUrl value stored in a HistoryItem: the current
previewUrl, with the null of a missing preview flowing through the
non-null assertion at line 418. -/
def dataUrlJson (pu : Option String) : Json :=
  match pu with
  | some u => Json.str u
  | none => Json.null

/-- Inputs handleAnalyze receives from the platform: the file-read
outcome, the inference-call outcome (text payload of the response), and
the two clock readings. -/
structure AnalyzeEnv where
  readerResult : Except Unit String
  response : Except Unit String
  nowIso : String
  nowLocale : String

/-- handleAnalyze (lines 370-434).  Returns the new state and the
outbound request, if one was issued. -/
def handleAnalyze (s : AppState) (env : AnalyzeEnv) : AppState × Option Request :=
  match s.file with
  | none => ({ s with error := some noFileMsg }, none)
  | some f =>
    let s1 := { s with loading := true, error := none, result := none }
    match env.readerResult with
    | .error _ => ({ s1 with error := some analyzeFailMsg, loading := false }, none)
    | .ok readerResult =>
      let base64Data := fileToBase64 readerResult
      let req : Request :=
        { model := "gemini-2.5-flash", systemInstruction := systemInstructionStr,
          parts := [.inlineData f.type base64Data, .text (analyzeContents s.promptText)] }
      match env.response with
      | .error _ => ({ s1 with error := some analyzeFailMsg, loading := false }, some req)
      | .ok text =>
        match JSONparse text with
        | none => ({ s1 with error := some analyzeFailMsg, loading := false }, some req)
        | some analysisResult =>
          let s2 := { s1 with result := some analysisResult }
          let item := mkHistoryItem analysisResult env.nowIso env.nowLocale
            (dataUrlJson s2.previewUrl) f.type s2.promptText
          match jsSpread s2.history with
          | .error _ => ({ s2 with error := some analyzeFailMsg, loading := false }, some req)
          | .ok elems =>
            let updatedHistory := Json.arr ((item :: elems).take 10)
            ({ s2 with
                history := updatedHistory,
                storage := some (JSONstringify updatedHistory),
                loading := false }, some req)

/-! ### Supporting lemmas for the claims -/

theorem contains_iff_mem (l : List String) (a : String) :
    l.contains a = true ↔ a ∈ l := by
  constructor
  · intro h
    rw [List.contains_iff_exists_mem_beq] at h
    obtain ⟨x, hx, he⟩ := h
    have : a = x := by simpa using he
    rw [this]
    exact hx
  · exact contains_true_of_mem

theorem dKeys_eq_nodup (ks : List String) : dKeys ks = true ↔ ks.Nodup := by
  induction ks with
  | nil => simp [dKeys]
  | cons k ks ih =>
    rw [dKeys, Bool.and_eq_true, List.nodup_cons, ← ih]
    constructor
    · intro ⟨h1, h2⟩
      refine ⟨?_, h2⟩
      intro hm
      rw [contains_true_of_mem hm] at h1
      simp at h1
    · intro ⟨h1, h2⟩
      refine ⟨?_, h2⟩
      cases hc : ks.contains k
      · rfl
      · exact absurd ((contains_iff_mem _ _).1 hc) h1

theorem jsonOwnProps_wf (j : Json) (h : wfB j = true) :
    dKeys ((jsonOwnProps j).map Prod.fst) = true ∧
      (∀ f ∈ jsonOwnProps j, wfB f.2 = true) := by
  cases j with
  | obj fs =>
    rw [wfB, Bool.and_eq_true] at h
    exact ⟨h.1, (wfF_iff _).1 h.2⟩
  | arr xs =>
    constructor
    · have hk : ((xs.enum.map (fun p => (natStr p.1, p.2))).map Prod.fst)
          = (List.range xs.length).map natStr := by
        rw [List.map_map, ← List.enum_map_fst xs, List.map_map]
        rfl
      rw [jsonOwnProps, hk, dKeys_eq_nodup]
      exact (List.nodup_range _).map natStr_injective
    · intro f hf
      rw [jsonOwnProps, List.mem_map] at hf
      obtain ⟨p, hp, hpf⟩ := hf
      rw [← hpf]
      exact (wfL_iff xs).1 h p.2 (List.snd_mem_of_mem_enum hp)
  | str t =>
    constructor
    · have hk : ((t.data.enum.map
            (fun p => (natStr p.1, Json.str (String.singleton p.2)))).map Prod.fst)
          = (List.range t.data.length).map natStr := by
        rw [List.map_map, ← List.enum_map_fst t.data, List.map_map]
        rfl
      rw [jsonOwnProps, hk, dKeys_eq_nodup]
      exact (List.nodup_range _).map natStr_injective
    · intro f hf
      rw [jsonOwnProps, List.mem_map] at hf
      obtain ⟨p, hp, hpf⟩ := hf
      rw [← hpf]
      rfl
  | null => exact ⟨rfl, by intro f hf; cases hf⟩
  | bool b => exact ⟨rfl, by intro f hf; cases hf⟩
  | num n => exact ⟨rfl, by intro f hf; cases hf⟩

theorem mkHistoryItem_wf (ar : Json) (a b : String) (du : Json) (m pr : String)
    (har : wfB ar = true) (hdu : wfB du = true) :
    wfB (mkHistoryItem ar a b du m pr) = true := by
  obtain ⟨hdk0, hv0⟩ := jsonOwnProps_wf ar har
  have h1d := dKeys_objSet _ "id" (.str a) hdk0
  have h1v := wfF_objSet _ "id" (.str a) hv0 rfl
  have h2d := dKeys_objSet _ "timestamp" (.str b) h1d
  have h2v := wfF_objSet _ "timestamp" (.str b) h1v rfl
  have hfilewf : wfB (.obj [("dataUrl", du), ("type", .str m)]) = true := by
    simp only [wfB, Bool.and_eq_true]
    refine ⟨rfl, ?_⟩
    show (wfB du && (wfB (.str m) && wfF [])) = true
    rw [hdu]
    rfl
  have h3d := dKeys_objSet _ "file" (.obj [("dataUrl", du), ("type", .str m)]) h2d
  have h3v := wfF_objSet _ "file" (.obj [("dataUrl", du), ("type", .str m)]) h2v hfilewf
  have h4d := dKeys_objSet _ "prompt" (.str pr) h3d
  have h4v := wfF_objSet _ "prompt" (.str pr) h3v rfl
  simp only [mkHistoryItem, wfB, Bool.and_eq_true]
  exact ⟨h4d, (wfF_iff _).2 h4v⟩

theorem wfL_take (xs : List Json) (n : Nat) (h : wfL xs = true) :
    wfL (xs.take n) = true := by
  rw [wfL_iff]
  intro x hx
  exact (wfL_iff xs).1 h x (List.mem_of_mem_take hx)

theorem safeL_iff (xs : List Json) : safeL xs = true ↔ ∀ x ∈ xs, safeB x = true := by
  induction xs with
  | nil => simp [safeL]
  | cons x xs ih => simp [safeL, Bool.and_eq_true, ih]

theorem safeF_iff (fs : List (String × Json)) :
    safeF fs = true ↔ ∀ f ∈ fs, safeB f.2 = true := by
  induction fs with
  | nil => simp [safeF]
  | cons f fs ih => simp [safeF, Bool.and_eq_true, ih]

theorem safeF_objSet (fs : List (String × Json)) (k : String) (v : Json)
    (h : ∀ f ∈ fs, safeB f.2 = true) (hv : safeB v = true) :
    ∀ f ∈ objSet fs k v, safeB f.2 = true := by
  unfold objSet
  split
  · intro f hf
    rw [List.mem_map] at hf
    obtain ⟨p, hp, hpf⟩ := hf
    by_cases hpk : p.1 = k
    · rw [if_pos hpk] at hpf
      rw [← hpf]
      exact hv
    · rw [if_neg hpk] at hpf
      rw [← hpf]
      exact h p hp
  · intro f hf
    rcases List.mem_append.1 hf with hf1 | hf1
    · exact h f hf1
    · have : f = (k, v) := by simpa using hf1
      rw [this]
      exact hv

theorem jsonOwnProps_safe (j : Json) (h : safeB j = true) :
    ∀ f ∈ jsonOwnProps j, safeB f.2 = true := by
  cases j with
  | obj fs =>
    simp only [safeB] at h
    exact (safeF_iff _).1 h
  | arr xs =>
    simp only [safeB] at h
    intro f hf
    rw [jsonOwnProps, List.mem_map] at hf
    obtain ⟨p, hp, hpf⟩ := hf
    rw [← hpf]
    exact (safeL_iff xs).1 h p.2 (List.snd_mem_of_mem_enum hp)
  | str t =>
    intro f hf
    rw [jsonOwnProps, List.mem_map] at hf
    obtain ⟨p, hp, hpf⟩ := hf
    rw [← hpf]
    rfl
  | null => intro f hf; cases hf
  | bool b => intro f hf; cases hf
  | num n => intro f hf; cases hf

theorem mkHistoryItem_safe (ar : Json) (a b : String) (du : Json) (m pr : String)
    (har : safeB ar = true) (hdu : safeB du = true) :
    safeB (mkHistoryItem ar a b du m pr) = true := by
  have h1 := safeF_objSet _ "id" (.str a) (jsonOwnProps_safe ar har) rfl
  have h2 := safeF_objSet _ "timestamp" (.str b) h1 rfl
  have hfilesafe : safeB (.obj [("dataUrl", du), ("type", .str m)]) = true := by
    show (safeB du && (safeB (.str m) && safeF [])) = true
    rw [hdu]
    rfl
  have h3 := safeF_objSet _ "file" (.obj [("dataUrl", du), ("type", .str m)]) h2 hfilesafe
  have h4 := safeF_objSet _ "prompt" (.str pr) h3 rfl
  simp only [mkHistoryItem, safeB]
  exact (safeF_iff _).2 h4

theorem safeL_take (xs : List Json) (n : Nat) (h : safeL xs = true) :
    safeL (xs.take n) = true := by
  rw [safeL_iff]
  intro x hx
  exact (safeL_iff xs).1 h x (List.mem_of_mem_take hx)

/-- Length of a JSON array value (0 for non-arrays). -/
def jlen : Json → Nat
  | .arr xs => xs.length
  | _ => 0

/-- Field access on a JSON object value. -/
def jField : Json → String → Option Json
  | .obj fs, k => (fs.find? (fun p => p.1 = k)).map Prod.snd
  | _, _ => none

/-- Reduction of handleAnalyze on the success path: the file is present,
the file read and the inference call succeed, the text payload parses,
and the current history is an array. -/
theorem handleAnalyze_ok (s : AppState) (env : AnalyzeEnv) (f : MediaFile)
    (rr text : String) (j : Json) (xs : List Json)
    (hf : s.file = some f) (hrr : env.readerResult = .ok rr)
    (hresp : env.response = .ok text) (hj : JSONparse text = some j)
    (hhist : s.history = .arr xs) :
    handleAnalyze s env =
      ({ s with
          loading := false, error := none, result := some j,
          history := Json.arr ((mkHistoryItem j env.nowIso env.nowLocale
            (dataUrlJson s.previewUrl) f.type s.promptText :: xs).take 10),
          storage := some (JSONstringify (Json.arr ((mkHistoryItem j env.nowIso
            env.nowLocale (dataUrlJson s.previewUrl) f.type s.promptText :: xs).take 10))) },
       some { model := "gemini-2.5-flash", systemInstruction := systemInstructionStr,
              parts := [.inlineData f.type (fileToBase64 rr),
                        .text (analyzeContents s.promptText)] }) := by
  unfold handleAnalyze
  rw [hf]
  dsimp only
  rw [hrr]
  dsimp only
  rw [hresp]
  dsimp only
  rw [hj]
  dsimp only
  rw [hhist]
  simp only [jsSpread]

/-! ### Concrete fixtures for witnesses and counterexamples -/

def dogFile : MediaFile := { name := "dog.jpg", type := "image/jpeg", content := [1, 2, 3] }

/-- State after startup with empty storage and selecting dog.jpg. -/
def cState : AppState := handleFileChange (startup none) (some dogFile) "1"

def okResp : String :=
  "\x7b\"behavior\":\"Comfort Seeking\",\"explanation\":\"He is relaxed.\",\"tip\":\"Let him rest.\"\x7d"

def cEnv1 : AnalyzeEnv :=
  { readerResult := .ok "data:image/jpeg;base64,AQID", response := .ok okResp,
    nowIso := "2026-01-01T00:00:00.000Z", nowLocale := "1/1/2026, 12:00:00 AM" }

def missingResp : String := "\x7b\"behavior\":\"x\"\x7d"

def cEnv3 : AnalyzeEnv := { cEnv1 with response := .ok missingResp }

def cEnvNet : AnalyzeEnv := { cEnv1 with response := .error () }

def infResp : String := "\x7b\"behavior\":1e999\x7d"

def cEnvInf : AnalyzeEnv := { cEnv1 with response := .ok infResp }

/-- Probe: does the behavior field of the first entry of the history
array hold the JSON null value? -/
def firstBehaviorNull (o : Option Json) : Bool :=
  match o with
  | some (.arr (x :: _)) =>
    match jField x "behavior" with
    | some .null => true
    | _ => false
  | _ => false

/-! ### Claims -/

/-- C1: for every successful analysis, the history list afterwards has
length = min(10, previous length + 1), with the newly constructed
HistoryItem at index 0, all previous items shifted one position right,
and any items that would land beyond index 9 dropped. -/
theorem c1_history_shift (s : AppState) (env : AnalyzeEnv) (f : MediaFile)
    (rr text : String) (j : Json) (xs : List Json)
    (hf : s.file = some f) (hrr : env.readerResult = .ok rr)
    (hresp : env.response = .ok text) (hj : JSONparse text = some j)
    (hhist : s.history = .arr xs) :
    ∃ ys, (handleAnalyze s env).1.history = Json.arr ys ∧
      ys.length = min 10 (xs.length + 1) ∧
      ys[0]? = some (mkHistoryItem j env.nowIso env.nowLocale
        (dataUrlJson s.previewUrl) f.type s.promptText) ∧
      (∀ i : Nat, i + 1 ≤ 9 → ys[i + 1]? = xs[i]?) ∧
      (∀ i : Nat, 9 < i + 1 → ys[i + 1]? = none) := by
  rw [handleAnalyze_ok s env f rr text j xs hf hrr hresp hj hhist]
  refine ⟨_, rfl, ?_, ?_, ?_, ?_⟩
  · rw [List.length_take, List.length_cons]
  · rw [List.getElem?_take_of_lt (by omega)]
    simp
  · intro i hi
    rw [List.getElem?_take_of_lt (by omega), List.getElem?_cons_succ]
  · intro i hi
    apply List.getElem?_eq_none_iff.mpr
    rw [List.length_take]
    omega

theorem c1_history_shift_witness :
    ∃ ys, (handleAnalyze cState cEnv1).1.history = Json.arr ys ∧
      ys.length = min 10 (([] : List Json).length + 1) ∧
      ys[0]? = some (mkHistoryItem (Json.obj [("behavior", Json.str "Comfort Seeking"),
        ("explanation", Json.str "He is relaxed."), ("tip", Json.str "Let him rest.")])
        cEnv1.nowIso cEnv1.nowLocale (dataUrlJson cState.previewUrl) dogFile.type
        cState.promptText) ∧
      (∀ i : Nat, i + 1 ≤ 9 → ys[i + 1]? = ([] : List Json)[i]?) ∧
      (∀ i : Nat, 9 < i + 1 → ys[i + 1]? = none) :=
  c1_history_shift cState cEnv1 dogFile "data:image/jpeg;base64,AQID" okResp
    (Json.obj [("behavior", Json.str "Comfort Seeking"),
      ("explanation", Json.str "He is relaxed."), ("tip", Json.str "Let him rest.")])
    [] rfl rfl rfl (by rfl) rfl

/-- C2 (amended): after a successful analysis whose parsed response and
prior history hold only safe numbers (integers of magnitude below 2^53,
where the exact model and the platform double agree), the snapshot
written to the storage cell, deserialized with JSON.parse, equals
exactly the in-memory history value at that point.  The wfB hypotheses
record that reachable histories have distinct object keys, as
JSON.parse always produces. -/
theorem c2_storage_roundtrip (s : AppState) (env : AnalyzeEnv) (f : MediaFile)
    (rr text : String) (j : Json) (xs : List Json)
    (hf : s.file = some f) (hrr : env.readerResult = .ok rr)
    (hresp : env.response = .ok text) (hj : JSONparse text = some j)
    (hhist : s.history = .arr xs) (hwf : wfB s.history = true)
    (hsafe : safeB s.history = true) (hjsafe : safeB j = true) :
    ∃ st, (handleAnalyze s env).1.storage = some st ∧
      JSONparse st = some ((handleAnalyze s env).1.history) := by
  rw [handleAnalyze_ok s env f rr text j xs hf hrr hresp hj hhist]
  refine ⟨_, rfl, ?_⟩
  have hjwf := JSONparse_wf text j hj
  have hduwf : wfB (dataUrlJson s.previewUrl) = true := by
    cases s.previewUrl <;> rfl
  have hdusafe : safeB (dataUrlJson s.previewUrl) = true := by
    cases s.previewUrl <;> rfl
  have hitem := mkHistoryItem_wf j env.nowIso env.nowLocale
    (dataUrlJson s.previewUrl) f.type s.promptText hjwf hduwf
  have hitems := mkHistoryItem_safe j env.nowIso env.nowLocale
    (dataUrlJson s.previewUrl) f.type s.promptText hjsafe hdusafe
  have hxs : wfL xs = true := by
    rw [hhist] at hwf
    exact hwf
  have hxss : safeL xs = true := by
    rw [hhist] at hsafe
    exact hsafe
  apply JSONparse_JSONstringify
  · show wfL ((mkHistoryItem j env.nowIso env.nowLocale
      (dataUrlJson s.previewUrl) f.type s.promptText :: xs).take 10) = true
    apply wfL_take
    rw [wfL, hitem, hxs]
    rfl
  · show safeL ((mkHistoryItem j env.nowIso env.nowLocale
      (dataUrlJson s.previewUrl) f.type s.promptText :: xs).take 10) = true
    apply safeL_take
    rw [safeL, hitems, hxss]
    rfl

theorem c2_storage_roundtrip_witness :
    ∃ st, (handleAnalyze cState cEnv1).1.storage = some st ∧
      JSONparse st = some ((handleAnalyze cState cEnv1).1.history) :=
  c2_storage_roundtrip cState cEnv1 dogFile "data:image/jpeg;base64,AQID" okResp
    (Json.obj [("behavior", Json.str "Comfort Seeking"),
      ("explanation", Json.str "He is relaxed."), ("tip", Json.str "Let him rest.")])
    [] rfl rfl rfl (by rfl) rfl rfl rfl rfl

set_option maxRecDepth 100000 in
/-- C2 (counterexample): a successful analysis does not always leave a
snapshot that deserializes to the in-memory history.  A response payload
carrying the number literal 1e999 parses to the double Infinity
(it exceeds the largest finite binary64 value), the analysis counts as a
success (result installed, no error message), but JSON.stringify writes
a non-finite number as null, so the persisted snapshot reads back with
null in the behavior field where the in-memory history holds Infinity. -/
theorem c2_infinity_counterexample :
    (handleAnalyze cState cEnvInf).1.result ≠ none ∧
    (handleAnalyze cState cEnvInf).1.error = none ∧
    ∃ st, (handleAnalyze cState cEnvInf).1.storage = some st ∧
      JSONparse st ≠ some ((handleAnalyze cState cEnvInf).1.history) := by
  refine ⟨?_, rfl, ?_⟩
  · have h : (handleAnalyze cState cEnvInf).1.result
        = some (Json.obj [("behavior", Json.num JNum.inf)]) := rfl
    rw [h]
    exact fun hc => Option.noConfusion hc
  · refine ⟨_, rfl, ?_⟩
    intro hc
    exact absurd (congrArg firstBehaviorNull hc) (by decide)

/-- C3 (counterexample): a response whose JSON parses but lacks the
explanation and tip fields is NOT treated as a failure: the result is
set, no error message is shown, and the history changes. -/
theorem c3_missing_fields_counterexample :
    (handleAnalyze cState cEnv3).1.result ≠ none ∧
    (handleAnalyze cState cEnv3).1.error = none ∧
    (handleAnalyze cState cEnv3).1.history ≠ cState.history := by
  refine ⟨?_, rfl, ?_⟩
  · have h : (handleAnalyze cState cEnv3).1.result
        = some (Json.obj [("behavior", Json.str "x")]) := rfl
    rw [h]
    simp
  · intro he
    have h1 : jlen ((handleAnalyze cState cEnv3).1.history) = 1 := rfl
    have h2 : jlen cState.history = 0 := rfl
    rw [he, h2] at h1
    exact absurd h1 (by omega)

/-- C3 (amended): only a text payload that fails JSON.parse is treated
as a failure; any payload that parses, including one missing the
behavior, explanation or tip fields, is treated as success with no field
validation: the parsed value becomes the result, no error is set, and a
history item derived from it is prepended. -/
theorem c3_any_parse_is_success (s : AppState) (env : AnalyzeEnv) (f : MediaFile)
    (rr text : String) (j : Json) (xs : List Json)
    (hf : s.file = some f) (hrr : env.readerResult = .ok rr)
    (hresp : env.response = .ok text) (hj : JSONparse text = some j)
    (hhist : s.history = .arr xs) :
    (handleAnalyze s env).1.result = some j ∧
    (handleAnalyze s env).1.error = none ∧
    (handleAnalyze s env).1.history = Json.arr ((mkHistoryItem j env.nowIso
      env.nowLocale (dataUrlJson s.previewUrl) f.type s.promptText :: xs).take 10) := by
  rw [handleAnalyze_ok s env f rr text j xs hf hrr hresp hj hhist]
  exact ⟨rfl, rfl, rfl⟩

theorem c3_any_parse_is_success_witness :
    (handleAnalyze cState cEnv3).1.result = some (Json.obj [("behavior", Json.str "x")]) ∧
    (handleAnalyze cState cEnv3).1.error = none ∧
    (handleAnalyze cState cEnv3).1.history = Json.arr ((mkHistoryItem
      (Json.obj [("behavior", Json.str "x")]) cEnv3.nowIso cEnv3.nowLocale
      (dataUrlJson cState.previewUrl) dogFile.type cState.promptText :: []).take 10) :=
  c3_any_parse_is_success cState cEnv3 dogFile "data:image/jpeg;base64,AQID" missingResp
    (Json.obj [("behavior", Json.str "x")]) [] rfl rfl rfl (by rfl) rfl

/-- C4: every failing analysis attempt (file-read failure, network
failure, or JSON parse failure) is atomic: the generic message is set,
result is null, loading is cleared, and neither the history nor the
storage cell changes. -/
theorem c4_failure_atomic (s : AppState) (env : AnalyzeEnv) (f : MediaFile)
    (hf : s.file = some f)
    (hfail : env.readerResult = .error ()
      ∨ (∃ rr, env.readerResult = .ok rr ∧ env.response = .error ())
      ∨ (∃ rr text, env.readerResult = .ok rr ∧ env.response = .ok text
          ∧ JSONparse text = none)) :
    (handleAnalyze s env).1.error = some analyzeFailMsg ∧
    (handleAnalyze s env).1.result = none ∧
    (handleAnalyze s env).1.loading = false ∧
    (handleAnalyze s env).1.history = s.history ∧
    (handleAnalyze s env).1.storage = s.storage := by
  unfold handleAnalyze
  rw [hf]
  dsimp only
  rcases hfail with hre | ⟨rr, hro, hresp⟩ | ⟨rr, text, hro, hresp, hj⟩
  · rw [hre]
    exact ⟨rfl, rfl, rfl, rfl, rfl⟩
  · rw [hro]
    dsimp only
    rw [hresp]
    exact ⟨rfl, rfl, rfl, rfl, rfl⟩
  · rw [hro]
    dsimp only
    rw [hresp]
    dsimp only
    rw [hj]
    exact ⟨rfl, rfl, rfl, rfl, rfl⟩

theorem c4_failure_atomic_witness :
    (handleAnalyze cState cEnvNet).1.error = some analyzeFailMsg ∧
    (handleAnalyze cState cEnvNet).1.result = none ∧
    (handleAnalyze cState cEnvNet).1.loading = false ∧
    (handleAnalyze cState cEnvNet).1.history = cState.history ∧
    (handleAnalyze cState cEnvNet).1.storage = cState.storage :=
  c4_failure_atomic cState cEnvNet dogFile rfl
    (Or.inr (Or.inl ⟨"data:image/jpeg;base64,AQID", rfl, rfl⟩))

/-- C5: triggering analyze with no media file selected issues no
inference call and only sets the inline message; every other part of the
state is untouched. -/
theorem c5_no_file (s : AppState) (env : AnalyzeEnv) (h : s.file = none) :
    handleAnalyze s env = ({ s with error := some noFileMsg }, none) := by
  unfold handleAnalyze
  rw [h]

theorem c5_no_file_witness :
    handleAnalyze (startup none) cEnv1
      = ({ startup none with error := some noFileMsg }, none) :=
  c5_no_file (startup none) cEnv1 rfl

/-- C6 (counterexample): at a concrete request the outbound text part is
the template built by the code, whose wording (in this media) differs
from the template the claim states (in this image/video). -/
theorem c6_template_counterexample :
    (handleAnalyze cState cEnv1).2 = some
      { model := "gemini-2.5-flash", systemInstruction := systemInstructionStr,
        parts := [.inlineData "image/jpeg" "AQID", .text (analyzeContents "")] } ∧
    analyzeContents "" ≠ specContents "" := by
  refine ⟨?_, ?_⟩
  · rfl
  have hne : (analyzeContents "").length ≠ (specContents "").length := by decide
  exact fun he => hne (congrArg String.length he)

/-- C6 (amended): for every issued request, the text part of the user
turn is exactly "Analyze the bulldog's behavior in this media.
Additional context from the owner: \"<context>\".", with the literal
None substituted when the context is empty. -/
theorem c6_request_template (s : AppState) (env : AnalyzeEnv) (f : MediaFile)
    (rr : String) (hf : s.file = some f) (hrr : env.readerResult = .ok rr) :
    (handleAnalyze s env).2 = some
      { model := "gemini-2.5-flash", systemInstruction := systemInstructionStr,
        parts := [.inlineData f.type (fileToBase64 rr),
                  .text (analyzeContents s.promptText)] } := by
  unfold handleAnalyze
  rw [hf]
  dsimp only
  rw [hrr]
  dsimp only
  cases hresp : env.response with
  | error e => rfl
  | ok text =>
    dsimp only
    cases hj : JSONparse text with
    | none => rfl
    | some j =>
      dsimp only
      cases hs : jsSpread s.history with
      | error e => rfl
      | ok elems => rfl

theorem c6_request_template_witness :
    (handleAnalyze cState cEnv1).2 = some
      { model := "gemini-2.5-flash", systemInstruction := systemInstructionStr,
        parts := [.inlineData dogFile.type (fileToBase64 "data:image/jpeg;base64,AQID"),
                  .text (analyzeContents cState.promptText)] } :=
  c6_request_template cState cEnv1 dogFile "data:image/jpeg;base64,AQID" rfl rfl

/-- C7 (code bug): the HistoryItem interface documents file.dataUrl as a
base64 data URL, but the value stored is the preview URL produced by
URL.createObjectURL — a session-scoped blob: reference that does not
contain the media bytes.  At the failing input (select dog.jpg, run one
successful analysis) the stored dataUrl is the object URL blob:1, not a
data: URL. -/
theorem c7_dataUrl_is_object_url :
    ∃ items, (handleAnalyze cState cEnv1).1.history = Json.arr items ∧
      (items.head?.bind (fun it => jField it "file")).bind
          (fun fo => jField fo "dataUrl")
        = some (Json.str (createObjectURL "1")) ∧
      cState.previewUrl = some (createObjectURL "1") ∧
      (createObjectURL "1").data.take 5 ≠ "data:".data := by
  refine ⟨_, rfl, ?_, rfl, ?_⟩
  · rfl
  · decide

/-- C8: a live capture that produces a photo yields a file-like object of
type image/jpeg whose name is prefixed capture-; afterwards the camera
stream is stopped and the UI mode is upload. -/
theorem c8_capture (s : AppState) (bytes : List Nat) (now : Nat) (blobId : String)
    (tracks : List String) (hstream : s.stream = some tracks) :
    (∃ suffix, (handleCapturePhoto s true true true (some bytes) now blobId).file
        = some { name := "capture-" ++ suffix, type := "image/jpeg", content := bytes }) ∧
    (handleCapturePhoto s true true true (some bytes) now blobId).mode = Mode.upload ∧
    (handleCapturePhoto s true true true (some bytes) now blobId).isCameraOn = false ∧
    (handleCapturePhoto s true true true (some bytes) now blobId).stream = none ∧
    (∀ t ∈ tracks, t ∈ (handleCapturePhoto s true true true (some bytes) now
      blobId).stoppedTracks) := by
  have hred : handleCapturePhoto s true true true (some bytes) now blobId
      = { s with
          file := some { name := "capture-" ++ (natStr now ++ ".jpg"),
                         type := "image/jpeg", content := bytes },
          previewUrl := some (createObjectURL blobId), result := none, error := none,
          mode := Mode.upload, isCameraOn := false, stream := none,
          stoppedTracks := s.stoppedTracks ++ tracks } := by
    unfold handleCapturePhoto handleStopCamera
    dsimp only
    rw [hstream]
    rfl
  rw [hred]
  refine ⟨⟨natStr now ++ ".jpg", rfl⟩, rfl, rfl, rfl, ?_⟩
  intro t ht
  exact List.mem_append.2 (Or.inr ht)

theorem c8_capture_witness :
    (∃ suffix, (handleCapturePhoto { startup none with
        stream := some ["track1"], isCameraOn := true, mode := Mode.live }
        true true true (some [7]) 171 "2").file
        = some { name := "capture-" ++ suffix, type := "image/jpeg", content := [7] }) ∧
    (handleCapturePhoto { startup none with
        stream := some ["track1"], isCameraOn := true, mode := Mode.live }
        true true true (some [7]) 171 "2").mode = Mode.upload ∧
    (handleCapturePhoto { startup none with
        stream := some ["track1"], isCameraOn := true, mode := Mode.live }
        true true true (some [7]) 171 "2").isCameraOn = false ∧
    (handleCapturePhoto { startup none with
        stream := some ["track1"], isCameraOn := true, mode := Mode.live }
        true true true (some [7]) 171 "2").stream = none ∧
    (∀ t ∈ ["track1"], t ∈ (handleCapturePhoto { startup none with
        stream := some ["track1"], isCameraOn := true, mode := Mode.live }
        true true true (some [7]) 171 "2").stoppedTracks) :=
  c8_capture { startup none with
    stream := some ["track1"], isCameraOn := true, mode := Mode.live }
    [7] 171 "2" ["track1"] rfl

/-- C9: when the persisted history value is absent or does not parse,
startup completes with the in-memory history equal to the empty list and
no error surfaced to the user. -/
theorem c9_load_failure_silent (stored : Option String)
    (hbad : stored = none ∨ ∃ raw, stored = some raw ∧ JSONparse raw = none) :
    (startup stored).history = Json.arr [] ∧ (startup stored).error = none := by
  unfold startup loadHistoryEffect initialState
  rcases hbad with rfl | ⟨raw, rfl, hp⟩
  · exact ⟨rfl, rfl⟩
  · dsimp only
    by_cases he : raw = ""
    · rw [if_pos he]
      exact ⟨rfl, rfl⟩
    · rw [if_neg he, hp]
      exact ⟨rfl, rfl⟩

theorem c9_load_failure_silent_witness :
    (startup (some "corrupt!!")).history = Json.arr [] ∧
    (startup (some "corrupt!!")).error = none :=
  c9_load_failure_silent (some "corrupt!!") (Or.inr ⟨"corrupt!!", rfl, by rfl⟩)

/-- C10: a stored value that parses as JSON is installed verbatim at
startup with no validation and no truncation; a stored array longer than
10 yields an in-memory history of that same length, above the cap. -/
theorem c10_verbatim_no_truncation (raw : String) (xs : List Json)
    (hp : JSONparse raw = some (.arr xs)) (hlen : 10 < xs.length) :
    (startup (some raw)).history = Json.arr xs ∧
    10 < jlen ((startup (some raw)).history) := by
  have hne : ¬ (raw = "") := by
    intro he
    rw [he] at hp
    exact Option.noConfusion hp
  unfold startup loadHistoryEffect initialState
  dsimp only
  rw [if_neg hne, hp]
  exact ⟨rfl, by simpa [jlen] using hlen⟩

set_option maxRecDepth 10000 in
theorem c10_verbatim_no_truncation_witness :
    (startup (some "[1,1,1,1,1,1,1,1,1,1,1]")).history
      = Json.arr (List.replicate 11 (Json.num (JNum.int 1))) ∧
    10 < jlen ((startup (some "[1,1,1,1,1,1,1,1,1,1,1]")).history) :=
  c10_verbatim_no_truncation "[1,1,1,1,1,1,1,1,1,1,1]"
    (List.replicate 11 (Json.num (JNum.int 1))) (by rfl) (by simp)

end BBI
